import Mathlib

/-!
Verification of the hotfis fuzzy-inference library.

This file gives a shallow embedding of the library's core data model and
operations — membership functions (`FuzzyFunc`), rules (`FuzzyRule`), the
inference engine (`FIS`) and the hierarchical network (`FuzzyNetwork`) —
and proves the specification claims about them.

Modelling conventions:
* rationals (`ℚ`) stand in for Python/numpy floats (exact arithmetic);
* `NpVal` captures the two shapes that flow through the pipeline, scalars
  (0-d numpy values and Python numbers) and 1-d arrays;
* fallible code is embedded in `Except String`, with the message recording
  the Python exception raised at that point;
* numpy float division never raises: division by zero produces a non-finite
  inf/nan with only a runtime warning.  The embedding makes such divisions
  total (`ℚ`'s `x / 0 = 0` is the junk stand-in for the non-finite result);
  every value-level theorem carries nonzero-denominator hypotheses under
  which the embedding and ideal real arithmetic agree.
-/

/-- Decidable equality of embedded results, for evaluating the development
on concrete inputs. -/
instance exceptDecEq {ε α : Type} [DecidableEq ε] [DecidableEq α] :
    DecidableEq (Except ε α) := fun a b =>
  match a, b with
  | .ok x, .ok y =>
      if h : x = y then .isTrue (by rw [h]) else .isFalse (by simp [h])
  | .error x, .error y =>
      if h : x = y then .isTrue (by rw [h]) else .isFalse (by simp [h])
  | .ok _, .error _ => .isFalse (by simp)
  | .error _, .ok _ => .isFalse (by simp)

namespace Hotfis

/-- Scalar-or-array values as passed through numpy: `scalar` covers 0-d numpy
values and plain Python numbers, `arr` covers 1-d arrays. -/
inductive NpVal where
  | scalar (x : ℚ)
  | arr (xs : List ℚ)
deriving DecidableEq, Repr

/-- Shape of an `NpVal`: 0-d, or 1-d with a length. -/
inductive Shape where
  | scalar
  | arr (n : Nat)
deriving DecidableEq, Repr

def NpVal.shape : NpVal → Shape
  | .scalar _ => .scalar
  | .arr xs => .arr xs.length

/-- Number of elements (numpy `size`; a 0-d value has size 1). -/
def NpVal.size : NpVal → Nat
  | .scalar _ => 1
  | .arr xs => xs.length

/-- Element access with a default of 0 out of range (only indices below
`size` are ever meaningful in the statements below). -/
def NpVal.get : NpVal → Nat → ℚ
  | .scalar x, _ => x
  | .arr xs, i => xs.getD i 0

/-- Elementwise map over a value; mirrors how `np.piecewise` (and any numpy
ufunc) produces an output of the same shape as its input. -/
def NpVal.map (f : ℚ → ℚ) : NpVal → NpVal
  | .scalar x => .scalar (f x)
  | .arr xs => .arr (xs.map f)

/-- Elementwise binary operation with numpy 1-d broadcasting: scalars
broadcast against arrays, arrays combine elementwise when their lengths
agree, a length-one array broadcasts, and any other length mismatch is a
numpy broadcast error (`none`). -/
def npZip (f : ℚ → ℚ → ℚ) : NpVal → NpVal → Option NpVal
  | .scalar a, .scalar b => some (.scalar (f a b))
  | .scalar a, .arr bs => some (.arr (bs.map (fun b => f a b)))
  | .arr as, .scalar b => some (.arr (as.map (fun a => f a b)))
  | .arr as, .arr bs =>
      if as.length = bs.length then some (.arr (List.zipWith f as bs))
      else if as.length = 1 then some (.arr (bs.map (fun b => f (as.headD 0) b)))
      else if bs.length = 1 then some (.arr (as.map (fun a => f a (bs.headD 0))))
      else none

def npAdd : NpVal → NpVal → Option NpVal := npZip (· + ·)

def npMin : NpVal → NpVal → Option NpVal := npZip min

def npMax : NpVal → NpVal → Option NpVal := npZip max

/-- Numpy float division (see the file comment: total, never raises). -/
def npDiv : NpVal → NpVal → Option NpVal := npZip (· / ·)

/-- Elementwise combination of two same-shaped values; total helper used
only where the shapes are already known to agree (the mismatch branch is
unreachable junk). -/
def zipSame (f : ℚ → ℚ → ℚ) : NpVal → NpVal → NpVal
  | .scalar a, .scalar b => .scalar (f a b)
  | .arr as, .arr bs => .arr (List.zipWith f as bs)
  | v, _ => v

/-- Models `np.sum(values, axis=0)` on a Python list of values: numpy stacks
the list into one array, which requires every entry to share one shape, and
sums along the new axis; `np.sum([])` is 0.0. -/
def npStackSum : List NpVal → Except String NpVal
  | [] => .ok (.scalar 0)
  | v :: vs =>
      if vs.all (fun w => w.shape = v.shape) then
        .ok (vs.foldl (zipSame (· + ·)) v)
      else .error "ValueError: could not stack values of unequal shape"

/-- Models `v.item() if v.size == 1 else v` (FuzzyRule.evaluate): a value
holding a single element is collapsed to a Python scalar. -/
def npCollapse : NpVal → NpVal
  | .scalar x => .scalar x
  | .arr [x] => .scalar x
  | .arr xs => .arr xs

/-- Pointwise order on same-shaped values. -/
def NpVal.le : NpVal → NpVal → Prop
  | .scalar a, .scalar b => a ≤ b
  | .arr as, .arr bs => List.Forall₂ (· ≤ ·) as bs
  | _, _ => False

-- ---------------------------------------------------------------------------
-- FuzzyFunc (src/hotfis/membership/fuzzyfunc.py)
-- ---------------------------------------------------------------------------

/-- Segment index for input `a`: `np.searchsorted(self.params, a)` with the
default side `left`, i.e. the number of parameters strictly below `a`. -/
def searchsorted (ps : List ℚ) (a : ℚ) : Nat :=
  ps.countP (fun p => decide (p < a))

/-- Evaluates segment `i` of the piecewise-linear function built by
`FuzzyFunc.__create_linear_subfunctions` over sorted parameters `ps` with
membership values `ys`: index 0 is the constant left of the first parameter,
indices 1..n-1 interpolate between consecutive control points, and index n is
the constant right of the last parameter. -/
def linSegEval (ps ys : List ℚ) (i : Nat) (a : ℚ) : ℚ :=
  if i = 0 then ys.headD 0
  else if i < ps.length then
    (ys.getD i 0 - ys.getD (i - 1) 0) / (ps.getD i 0 - ps.getD (i - 1) 0)
      * (a - ps.getD (i - 1) 0) + ys.getD (i - 1) 0
  else ys.getLastD 0

/-- Scalar evaluation of a piecewise-linear membership function
(`FuzzyFunc.__call__` on the `_is_linear` path: segment lookup by
`np.searchsorted`, then `np.piecewise` applies that segment). -/
def linearEval (ps ys : List ℚ) (a : ℚ) : ℚ :=
  linSegEval ps ys (searchsorted ps a) a

/-- Evaluation strategy bound to a membership function: a piecewise-linear
table, a custom formula over the parameters, or the `tsk` output sentinel
that refuses membership queries. -/
inductive FnImpl where
  | linear (params membVals : List ℚ)
  | special (formula : ℚ → List ℚ → ℚ) (params : List ℚ)
  | tsk

structure FuzzyFunc where
  name : String
  fn_type : String
  impl : FnImpl
  center : ℚ

def FnImpl.evalScalar : FnImpl → ℚ → ℚ
  | .linear ps ys, a => linearEval ps ys a
  | .special f ps, a => f a ps
  | .tsk, _ => 0

/-- Boolean discriminator for the tsk sentinel (decidable stand-in for
equality with `FnImpl.tsk`, which is not decidable because the `special`
constructor carries a function). -/
def FnImpl.isTsk : FnImpl → Bool
  | .tsk => true
  | _ => false

/-- `FuzzyFunc.__call__`: a tsk-kind function raises NotImplementedError
(the source tests `self.fn_type == "tsk"`, which for constructor-built
functions holds exactly when no evaluation strategy was bound); any other
kind is evaluated elementwise by `np.piecewise`, whose output has the same
shape as the input. -/
def FuzzyFunc.call (f : FuzzyFunc) (v : NpVal) : Except String NpVal :=
  match f.impl with
  | .tsk => .error "NotImplementedError: TSK output functions cannot determine membership."
  | impl => .ok (v.map impl.evalScalar)

/-- Mean of the sorted parameters at the positions where the membership
values attain their maximum (`FuzzyFunc._build_generic`): the zeroth-order
TSK representative value. -/
def centerOf (ps ys : List ℚ) : ℚ :=
  let m := ys.foldl max (ys.headD 0)
  let sel := (List.zip ps ys).filterMap (fun py => if py.2 = m then some py.1 else none)
  sel.sum / sel.length

/-- Ascending sort of the parameters (`self.params.sort()`). -/
def npSort (l : List ℚ) : List ℚ :=
  l.insertionSort (· ≤ ·)

/-- Detects an infinite interior slope: two consecutive sorted parameters
equal while their membership values differ, making `(y1-y0)/(x1-x0)` a
division by zero that numpy turns into inf, which the constructor rejects
with ZeroDivisionError.  Note 0/0 gives nan and `np.isinf(nan)` is false,
so a zero-width segment between equal membership values is not rejected. -/
def hasInfSlope (ps ys : List ℚ) : Bool :=
  (List.range (ps.length - 1)).any (fun i =>
    decide (ps.getD (i + 1) 0 = ps.getD i 0) && decide (ys.getD (i + 1) 0 ≠ ys.getD i 0))

/-- `FuzzyFunc._build_generic`: validates the membership values and arity,
sorts the parameters ascending, rejects infinite slopes, and records the
piecewise table together with the representative `center`. -/
def buildGeneric (name fn_type : String) (params membVals : List ℚ) :
    Except String FuzzyFunc :=
  if ¬ membVals.all (fun y => decide (0 ≤ y) && decide (y ≤ 1)) then
    .error "ValueError: A value in y is not between 0 and 1."
  else if params.length ≠ membVals.length then
    .error "ValueError: Shape of domain parameters and function values do not match."
  else
    let ps := npSort params
    if hasInfSlope ps membVals then
      .error "ZeroDivisionError: Linear function parameters are equal."
    else
      .ok { name := name, fn_type := fn_type, impl := .linear ps membVals,
            center := centerOf ps membVals }

/-- `FuzzyFunc.__init__` with a template-name specification
(`FuzzyFunc.templates`: leftedge → [1,0], rightedge → [0,1],
triangular → [0,1,0], trapezoidal → [0,1,1,0]; `tsk` binds no evaluable
function and takes the first parameter as its representative value).
The gaussian template is a real-exponential formula and is out of the
rational fragment; custom callables are built by `FuzzyFunc.ofCallable`. -/
def FuzzyFunc.ofTemplate (name : String) (params : List ℚ) (template : String) :
    Except String FuzzyFunc :=
  if template = "triangular" then buildGeneric name template params [0, 1, 0]
  else if template = "trapezoidal" then buildGeneric name template params [0, 1, 1, 0]
  else if template = "leftedge" then buildGeneric name template params [1, 0]
  else if template = "rightedge" then buildGeneric name template params [0, 1]
  else if template = "tsk" then
    .ok { name := name, fn_type := template, impl := .tsk, center := params.headD 0 }
  else .error "KeyError: Template name not found."

/-- `FuzzyFunc.__init__` with a custom callable (`_build_special`): the
formula is bound with the unsorted parameters and the first parameter is the
representative value. -/
def FuzzyFunc.ofCallable (name : String) (params : List ℚ)
    (formula : ℚ → List ℚ → ℚ) : FuzzyFunc :=
  { name := name, fn_type := "special", impl := .special formula params,
    center := params.headD 0 }

-- ---------------------------------------------------------------------------
-- FuzzyRule (src/hotfis/rules/fuzzyrule.py)
-- ---------------------------------------------------------------------------

/-- Group name as stored by the rule reader: the reader's `mf_g_name` slot
holds Python `None` until a group word has been read, so a clause's group
name is optional. -/
abbrev GName := Option String

structure Antecedent where
  group_name : GName
  fn_name : String
  is_and : Bool
deriving DecidableEq, Repr

structure Consequent where
  group_name : GName
  fn_name : String
deriving DecidableEq, Repr

/-- A parsed rule.  `FuzzyRule._read_rule` initializes its consequent slot to
`None` and only fills it when a consequent clause is completed, so the stored
consequent is optional. -/
structure FuzzyRule where
  antecedents : List Antecedent
  consequent : Option Consequent
deriving DecidableEq, Repr

/-- Parse state of `FuzzyRule._read_rule`'s word loop. -/
structure ParseState where
  antecedents : List Antecedent
  consequent : Option Consequent
  end_clause : Bool
  is_and : Bool
  mf_g_name : GName
  is_consequent : Bool

def initParseState : ParseState :=
  { antecedents := [], consequent := none, end_clause := false,
    is_and := false, mf_g_name := none, is_consequent := false }

/-- One iteration of `FuzzyRule._read_rule`'s loop on a lowercased word,
with the branches in the source's order.  Note that in the consequent
branch `end_clause` is never reset, so each later word overwrites the
consequent. -/
def readWord (st : ParseState) (word : String) : ParseState :=
  if ¬ st.is_consequent then
    if word = "if" ∨ word = "or" then { st with is_and := false }
    else if word = "and" then { st with is_and := true }
    else if word = "is" then { st with end_clause := true }
    else if st.end_clause then
      { st with end_clause := false,
                antecedents := st.antecedents ++ [⟨st.mf_g_name, word, st.is_and⟩] }
    else if word = "then" then { st with is_consequent := true }
    else { st with mf_g_name := some word }
  else
    if word = "is" then { st with end_clause := true }
    else if st.end_clause then { st with consequent := some ⟨st.mf_g_name, word⟩ }
    else { st with mf_g_name := some word }

def isSpaceChar (c : Char) : Bool :=
  c = ' ' || c = '\t' || c = '\n' || c = '\r'

/-- Worker for `pySplit`: walks the characters, gathering the current word
in reverse. -/
def splitWordsAux : List Char → List Char → List String
  | [], cur => if cur.isEmpty then [] else [String.mk cur.reverse]
  | c :: cs, cur =>
      if isSpaceChar c then
        if cur.isEmpty then splitWordsAux cs []
        else String.mk cur.reverse :: splitWordsAux cs []
      else splitWordsAux cs (c :: cur)

/-- Python `str.split()`: split on whitespace runs, dropping empty pieces. -/
def pySplit (s : String) : List String :=
  splitWordsAux s.data []

/-- Python `str.lower()` on the character list. -/
def pyLower (s : String) : String :=
  String.mk (s.data.map Char.toLower)

/-- `FuzzyRule._read_rule`: fold the whitespace-delimited, lowercased words
through the parse state.  The reader has no failure path: it never raises,
whatever the text. -/
def readRule (rule_text : String) : List Antecedent × Option Consequent :=
  let st := (pySplit rule_text).foldl (fun st w => readWord st (pyLower w)) initParseState
  (st.antecedents, st.consequent)

/-- `FuzzyRule.__init__`: stores whatever `_read_rule` produced. -/
def FuzzyRule.ofText (rule_text : String) : FuzzyRule :=
  ⟨(readRule rule_text).1, (readRule rule_text).2⟩

-- ---------------------------------------------------------------------------
-- Groups and groupsets (membgroup.py / fuzzygroupset.py)
-- ---------------------------------------------------------------------------

/-- A membership group: named functions sharing one variable, plus the
(min, max) domain used for Mamdani sampling. -/
structure FuzzyGroup where
  name : String
  domain : ℚ × ℚ
  fns : List FuzzyFunc

/-- Python dict lookup `group[fn_name]` (function names unique per group). -/
def FuzzyGroup.find? (g : FuzzyGroup) (fn_name : String) : Option FuzzyFunc :=
  g.fns.find? (fun f => f.name == fn_name)

structure FuzzyGroupset where
  groups : List FuzzyGroup

/-- Python dict lookup `groupset[group_name]`; a `None` key is absent. -/
def FuzzyGroupset.find? (gs : FuzzyGroupset) (g : GName) : Option FuzzyGroup :=
  match g with
  | none => none
  | some n => gs.groups.find? (fun gr => gr.name == n)

/-- The double lookup `groupset[group_name][fn_name]`. -/
def lookupFn (gs : FuzzyGroupset) (g : GName) (fn : String) : Option FuzzyFunc :=
  (gs.find? g).bind (fun gr => gr.find? fn)

/-- An input mapping: a Python dict with group-name keys (possibly None). -/
abbrev Inputs := GName → Option NpVal

-- ---------------------------------------------------------------------------
-- Rule evaluation (FuzzyRule.evaluate)
-- ---------------------------------------------------------------------------

def keyErrMsg (g : GName) : String :=
  "KeyError: Rule - Failed to find an input or membership function for the rule's '"
    ++ (match g with | some n => n | none => "None") ++ "' group."

def broadcastErrMsg : String :=
  "ValueError: operands could not be broadcast together"

/-- One antecedent's membership: look up the input value bound to the
antecedent's group, then `groupset[group][fn]` applied to it.  Either
missing key raises the rule's KeyError naming the group; a tsk-kind
function raises NotImplementedError from `__call__` (not caught by the
`except KeyError` in the source). -/
def anteMembership (gs : FuzzyGroupset) (x : Inputs) (a : Antecedent) :
    Except String NpVal :=
  match x a.group_name with
  | none => .error (keyErrMsg a.group_name)
  | some v =>
      match lookupFn gs a.group_name a.fn_name with
      | none => .error (keyErrMsg a.group_name)
      | some f => f.call v

/-- The antecedent loop of `FuzzyRule.evaluate`: the first membership seeds
the accumulator (`prev_ms is None`), each later one combines by
`np.minimum` when the antecedent is AND and `np.maximum` when OR. -/
def evalLoop (gs : FuzzyGroupset) (x : Inputs) :
    List Antecedent → Option NpVal → Except String (Option NpVal)
  | [], acc => .ok acc
  | a :: rest, acc => do
      let m ← anteMembership gs x a
      match acc with
      | none => evalLoop gs x rest (some m)
      | some prev =>
          match (if a.is_and then npMin prev m else npMax prev m) with
          | none => .error broadcastErrMsg
          | some comb => evalLoop gs x rest (some comb)

/-- The list of per-antecedent memberships (the values the loop above
computes, in order), used to state the aggregation claims. -/
def anteMemberships (gs : FuzzyGroupset) (x : Inputs) :
    List Antecedent → Except String (List NpVal)
  | [] => .ok []
  | a :: rest => do
      let m ← anteMembership gs x a
      let ms ← anteMemberships gs x rest
      .ok (m :: ms)

/-- `FuzzyRule.evaluate`: run the antecedent loop, collapse a size-one
result to a Python scalar by `.item()`, and return it with the consequent's
group and function names.  A rule with no antecedents or no consequent hits
an attribute access on `None`. -/
def FuzzyRule.evaluate (r : FuzzyRule) (x : Inputs) (gs : FuzzyGroupset) :
    Except String (GName × String × NpVal) := do
  let acc ← evalLoop gs x r.antecedents none
  match acc with
  | none => .error "AttributeError: NoneType has no attribute item"
  | some prev =>
      match r.consequent with
      | none => .error "AttributeError: NoneType has no attribute group_name"
      | some c => .ok (c.group_name, c.fn_name, npCollapse prev)

-- ---------------------------------------------------------------------------
-- FuzzyRuleset (src/hotfis/rules/fuzzyruleset.py)
-- ---------------------------------------------------------------------------

structure FuzzyRuleset where
  rules : List FuzzyRule

/-- `FuzzyRuleset.get_input_names`: the antecedent group names.  The
source's set is modelled as a list; only membership is ever used. -/
def FuzzyRuleset.input_names (rs : FuzzyRuleset) : List GName :=
  rs.rules.flatMap (fun r => r.antecedents.map (·.group_name))

/-- `FuzzyRuleset.get_outputs_name`: the consequent group names.  The
source reads `rule.consequent.group_name`, which raises AttributeError at
Ruleset construction when a rule lacks a consequent, so this embedding is
meaningful only for rules that do have one. -/
def FuzzyRuleset.output_names (rs : FuzzyRuleset) : List GName :=
  rs.rules.filterMap (fun r => r.consequent.map (·.group_name))

-- ---------------------------------------------------------------------------
-- FIS (src/hotfis/fis/fis.py)
-- ---------------------------------------------------------------------------

structure FIS where
  groupset : FuzzyGroupset
  ruleset : FuzzyRuleset

/-- Inner dict of `eval_membership`'s result: function name to value, in
insertion order. -/
abbrev MembInner := List (String × NpVal)

/-- Outer dict: output group name to inner dict, in insertion order. -/
abbrev MembDict := List (GName × MembInner)

/-- Routing one rule output into a group's inner dict
(`FIS.eval_membership` lines 143-146): a new function key is appended, an
existing one accumulates by `+=` (numpy broadcasting addition). -/
def innerUpdate (inner : MembInner) (fn : String) (v : NpVal) :
    Except String MembInner :=
  match inner with
  | [] => .ok [(fn, v)]
  | (n, old) :: rest =>
      if n = fn then
        match npAdd old v with
        | none => .error broadcastErrMsg
        | some s => .ok ((n, s) :: rest)
      else do
        let rest' ← innerUpdate rest fn v
        .ok ((n, old) :: rest')

/-- Routing one rule output into the outer dict (lines 139-146). -/
def dictUpdate (d : MembDict) (g : GName) (fn : String) (v : NpVal) :
    Except String MembDict :=
  match d with
  | [] => .ok [(g, [(fn, v)])]
  | (gn, inner) :: rest =>
      if gn = g then do
        let inner' ← innerUpdate inner fn v
        .ok ((gn, inner') :: rest)
      else do
        let rest' ← dictUpdate rest g fn v
        .ok ((gn, inner) :: rest')

/-- The rule loop of `FIS.eval_membership` (lines 134-146): evaluate every
rule in order and route its firing strength by (group, function). -/
def accumRules (gs : FuzzyGroupset) (x : Inputs) :
    List FuzzyRule → MembDict → Except String MembDict
  | [], d => .ok d
  | r :: rest, d => do
      let gfo ← r.evaluate x gs
      let d' ← dictUpdate d gfo.1 gfo.2.1 gfo.2.2
      accumRules gs x rest d'

/-- The evaluation results of all rules in order (used to state how
repeated consequent functions combine). -/
def ruleOutputs (gs : FuzzyGroupset) (x : Inputs) :
    List FuzzyRule → Except String (List (GName × String × NpVal))
  | [] => .ok []
  | r :: rest => do
      let gfo ← r.evaluate x gs
      let ts ← ruleOutputs gs x rest
      .ok (gfo :: ts)

/-- Accumulation phase of `FIS.eval_membership` (lines 131-146): evaluate
every rule in order and route its firing strength by (group, function),
adding when several rules share one consequent function. -/
def FIS.eval_membership_raw (fis : FIS) (x : Inputs) : Except String MembDict :=
  accumRules fis.groupset x fis.ruleset.rules []

/-- Normalization phase of `FIS.eval_membership` (lines 148-155): every
function's accumulated value is divided by the per-group
`np.sum([...], axis=0)`.  The division is numpy float division: a zero sum
yields non-finite values with a runtime warning, not an error. -/
def divAll (s : NpVal) : MembInner → Except String MembInner
  | [] => .ok []
  | p :: rest =>
      match npDiv p.2 s with
      | none => .error broadcastErrMsg
      | some w => do
          let rest' ← divAll s rest
          .ok ((p.1, w) :: rest')

def normalizeGroup (inner : MembInner) : Except String MembInner := do
  let s ← npStackSum (inner.map (·.2))
  divAll s inner

def normalizeAll : MembDict → Except String MembDict
  | [] => .ok []
  | gi :: rest => do
      let inner' ← normalizeGroup gi.2
      let rest' ← normalizeAll rest
      .ok ((gi.1, inner') :: rest')

def FIS.eval_membership (fis : FIS) (x : Inputs) : Except String MembDict := do
  let d ← fis.eval_membership_raw x
  normalizeAll d

/-- One output group of `FIS.convert_to_tsk`: accumulate
`top += membership * fn.center` and `bot += membership` over the group's
returned functions, then divide.  On the `eval_tsk` path every membership
is a numpy value (it passed through the numpy normalization division), so
`top / bot` is numpy division and never raises; the source's
`except ZeroDivisionError` branch guards only plain-Python operands and is
unreachable from `eval_tsk`. -/
def tskSums (gs : FuzzyGroupset) (g : GName) :
    MembInner → NpVal × NpVal → Except String (NpVal × NpVal)
  | [], tb => .ok tb
  | p :: rest, tb =>
      match lookupFn gs g p.1 with
      | none => .error "KeyError: unknown group or function name"
      | some f =>
          match npAdd tb.1 (p.2.map (fun m => m * f.center)), npAdd tb.2 p.2 with
          | some top', some bot' => tskSums gs g rest (top', bot')
          | _, _ => .error broadcastErrMsg

def tskGroup (gs : FuzzyGroupset) (g : GName) (inner : MembInner) :
    Except String NpVal := do
  let tb ← tskSums gs g inner (NpVal.scalar 0, NpVal.scalar 0)
  match npDiv tb.1 tb.2 with
  | none => .error broadcastErrMsg
  | some w => .ok w

def tskAll (gs : FuzzyGroupset) : MembDict → Except String (List (GName × NpVal))
  | [] => .ok []
  | gi :: rest => do
      let v ← tskGroup gs gi.1 gi.2
      let rest' ← tskAll gs rest
      .ok ((gi.1, v) :: rest')

def FIS.convert_to_tsk (fis : FIS) (m : MembDict) :
    Except String (List (GName × NpVal)) :=
  tskAll fis.groupset m

/-- `FIS.eval_tsk`: memberships (accumulate, then normalize) followed by the
TSK weighted average. -/
def FIS.eval_tsk (fis : FIS) (x : Inputs) : Except String (List (GName × NpVal)) := do
  let m ← fis.eval_membership x
  fis.convert_to_tsk m

-- ---------------------------------------------------------------------------
-- Mamdani output and defuzzification
-- ---------------------------------------------------------------------------

/-- Codomain of a Mamdani output: one sampled curve, or a batch of curves
(one per element of an array-shaped firing strength). -/
inductive Codom where
  | one (ys : List ℚ)
  | batch (rows : List (List ℚ))
deriving DecidableEq, Repr

/-- `FIS.defuzz_mamdani` (static, taking the single (domain, codomains)
tuple): centroid of area.  `top = codomains * domain` and `codomains` are
summed along the last axis over `np.atleast_2d`, divided elementwise, and a
single resulting value is collapsed to a Python scalar by `.item()`.  The
divisions are numpy divisions (total; a zero codomain sum yields a
non-finite value, not an exception). -/
def FIS.defuzz_mamdani (mamdani_output : List ℚ × Codom) : Except String NpVal :=
  match mamdani_output.2 with
  | .one ys =>
      if ys.length = mamdani_output.1.length then
        .ok (.scalar ((List.zipWith (· * ·) ys mamdani_output.1).sum / ys.sum))
      else .error broadcastErrMsg
  | .batch rows =>
      if rows.all (fun r => r.length = mamdani_output.1.length) then
        .ok (npCollapse (.arr (rows.map (fun r =>
          (List.zipWith (· * ·) r mamdani_output.1).sum / r.sum))))
      else .error broadcastErrMsg

/-- `np.linspace a b n`: n evenly spaced samples from a to b inclusive. -/
def linspace (a b : ℚ) (n : Nat) : List ℚ :=
  if n = 1 then [a]
  else (List.range n).map (fun i => a + (b - a) * i / (n - 1))

def NpVal.toListQ : NpVal → List ℚ
  | .scalar x => [x]
  | .arr xs => xs

/-- `np.maximum` of accumulated codomains, with (n) against (m, n)
broadcasting; mismatched lengths are a numpy broadcast error. -/
def codomMax : Codom → Codom → Except String Codom
  | .one a, .one b =>
      if a.length = b.length then .ok (.one (List.zipWith max a b))
      else .error broadcastErrMsg
  | .one a, .batch rows =>
      if rows.all (fun r => r.length = a.length) then
        .ok (.batch (rows.map (fun r => List.zipWith max a r)))
      else .error broadcastErrMsg
  | .batch rows, .one a =>
      if rows.all (fun r => r.length = a.length) then
        .ok (.batch (rows.map (fun r => List.zipWith max r a)))
      else .error broadcastErrMsg
  | .batch r1, .batch r2 =>
      if r1.length = r2.length ∧ (List.zip r1 r2).all (fun p => p.1.length = p.2.length) then
        .ok (.batch (List.zipWith (List.zipWith max) r1 r2))
      else .error broadcastErrMsg

/-- `np.squeeze` on the accumulated codomain: a singleton batch collapses
to its only row.  (The further collapse of a length-one domain axis is
outside this model; Mamdani sampling uses num_points ≥ 2.) -/
def codomSqueeze : Codom → Codom
  | .batch [r] => .one r
  | c => c

/-- One output group of `FIS.convert_to_mamdani`: sample the group's domain,
clip every function's sampled curve at its firing strength
(`np.minimum` via the vectorized lambda, one row per firing-strength
element), and accumulate across functions by `np.maximum` starting from the
scalar 0.0. -/
def mamAccum (gr : FuzzyGroup) (domain : List ℚ) :
    MembInner → Codom → Except String Codom
  | [], acc => .ok acc
  | p :: rest, acc =>
      match gr.find? p.1 with
      | none => .error "KeyError: unknown output function"
      | some f => do
          let fv ← f.call (.arr domain)
          let vals : Codom := match p.2 with
            | .scalar a => .one (fv.toListQ.map (fun y => min y a))
            | .arr as => .batch (as.map (fun a => fv.toListQ.map (fun y => min y a)))
          let acc' ← codomMax acc vals
          mamAccum gr domain rest acc'

def mamGroup (gs : FuzzyGroupset) (numPts : Nat) (g : GName) (inner : MembInner) :
    Except String (List ℚ × Codom) :=
  match gs.find? g with
  | none => .error "KeyError: unknown output group"
  | some gr => do
      let domain := linspace gr.domain.1 gr.domain.2 numPts
      let c ← mamAccum gr domain inner (.one (domain.map (fun _ => 0)))
      .ok (domain, codomSqueeze c)

def mamAll (gs : FuzzyGroupset) (numPts : Nat) :
    MembDict → Except String (List (GName × (List ℚ × Codom)))
  | [] => .ok []
  | gi :: rest => do
      let dc ← mamGroup gs numPts gi.1 gi.2
      let rest' ← mamAll gs numPts rest
      .ok ((gi.1, dc) :: rest')

def FIS.convert_to_mamdani (fis : FIS) (m : MembDict) (numPts : Nat) :
    Except String (List (GName × (List ℚ × Codom))) :=
  mamAll fis.groupset numPts m

def FIS.eval_mamdani (fis : FIS) (x : Inputs) (numPts : Nat) :
    Except String (List (GName × (List ℚ × Codom))) := do
  let m ← fis.eval_membership x
  fis.convert_to_mamdani m numPts

-- ---------------------------------------------------------------------------
-- FuzzyNetwork (src/hotfis/network/fuzzynetwork.py)
-- ---------------------------------------------------------------------------

mutual
inductive FNode where
  | node (name : String) (ruleset : FuzzyRuleset) (branches : FNodeList)
inductive FNodeList where
  | nil
  | cons (head : FNode) (tail : FNodeList)
end

def FNode.name : FNode → String
  | .node n _ _ => n

def FNode.ruleset : FNode → FuzzyRuleset
  | .node _ rs _ => rs

def FNode.branches : FNode → FNodeList
  | .node _ _ b => b

/-- A fuzzy network: the shared groupset and the forest of root nodes built
by `insert`. -/
structure FuzzyNetwork where
  groupset : FuzzyGroupset
  roots : FNodeList

def FNodeList.names : FNodeList → List String
  | .nil => []
  | .cons h t => h.name :: t.names

/- All (node name, input group) pairs of a subtree: the network's
`input_names` registry, which `_update_io` extends with every inserted
node's ruleset input names. -/
mutual
def FNode.inputPairs : FNode → List (String × GName)
  | .node n rs b => rs.input_names.map (fun g => (n, g)) ++ b.inputPairs
def FNodeList.inputPairs : FNodeList → List (String × GName)
  | .nil => []
  | .cons h t => h.inputPairs ++ t.inputPairs
end

/- `FuzzyNetwork._update_addressed`: for every node, each direct branch
output that is also one of the node's ruleset inputs marks the pair
(node name, that group) as internally satisfied; then recurse into the
branch. -/
mutual
def FNode.addressed : FNode → List (String × GName)
  | .node n rs b => b.addressedUnder n rs.input_names
def FNodeList.addressedUnder : FNodeList → String → List GName → List (String × GName)
  | .nil, _, _ => []
  | .cons h t, pname, pinputs =>
      (h.ruleset.output_names.filter (fun g => pinputs.contains g)).map (fun g => (pname, g))
        ++ h.addressed ++ t.addressedUnder pname pinputs
end

def FNodeList.allAddressed : FNodeList → List (String × GName)
  | .nil => []
  | .cons h t => h.addressed ++ t.allAddressed

/-- `FuzzyNetwork.req_inputs`: the input pairs not addressed by any branch
in the walk above (set difference, modelled on lists). -/
def FuzzyNetwork.req_inputs (net : FuzzyNetwork) : List (String × GName) :=
  net.roots.inputPairs.filter (fun p => ¬ net.roots.allAddressed.contains p)

/-- `all_inputs.update(new_outputs)`: merge a node's defuzzified outputs
into the running input mapping, overwriting same-named keys. -/
def updateInputs (x : Inputs) (outs : List (GName × NpVal)) : Inputs :=
  fun k =>
    match outs.find? (fun p => p.1 == k) with
    | some p => some p.2
    | none => x k

/-- `all_outputs[name] = v` on the insertion-ordered outputs dict. -/
def outputsInsert {β : Type} (outs : List (String × β)) (name : String) (v : β) :
    List (String × β) :=
  if outs.any (fun p => p.1 == name) then
    outs.map (fun p => if p.1 == name then (p.1, v) else p)
  else outs ++ [(name, v)]

/- TSK traversal of `FuzzyNetwork._eval_subtree` (fn_type "tsk"): process
each branch depth-first (its own branches first), evaluate the branch's FIS
with the inputs accumulated so far, record its outputs, and merge them into
the running inputs. -/
mutual
def evalSubtreeTsk (gs : FuzzyGroupset) :
    FNodeList → Inputs → List (String × List (GName × NpVal)) →
    Except String (Inputs × List (String × List (GName × NpVal)))
  | .nil, ins, outs => .ok (ins, outs)
  | .cons b rest, ins, outs => do
      let io ← evalBranchTsk gs b ins outs
      evalSubtreeTsk gs rest io.1 io.2
def evalBranchTsk (gs : FuzzyGroupset) (b : FNode) (ins : Inputs)
    (outs : List (String × List (GName × NpVal))) :
    Except String (Inputs × List (String × List (GName × NpVal))) :=
  match b with
  | .node name rs branches => do
      let io ← evalSubtreeTsk gs branches ins outs
      let new ← FIS.eval_tsk ⟨gs, rs⟩ io.1
      .ok (updateInputs io.1 new, outputsInsert io.2 name new)
end

/-- The root loop of `FuzzyNetwork.eval_tsk`: for each root, evaluate its
subtree (updating the shared inputs), then the root itself; the root's
output is recorded but not merged into the inputs. -/
def evalRootsTsk (gs : FuzzyGroupset) :
    FNodeList → Inputs → List (String × List (GName × NpVal)) →
    Except String (Inputs × List (String × List (GName × NpVal)))
  | .nil, ins, outs => .ok (ins, outs)
  | .cons r rest, ins, outs =>
      match r with
      | .node name rs branches => do
          let io ← evalSubtreeTsk gs branches ins outs
          let rootOut ← FIS.eval_tsk ⟨gs, rs⟩ io.1
          evalRootsTsk gs rest io.1 (outputsInsert io.2 name rootOut)

/-- `FuzzyNetwork.eval_tsk` with return_all = False: only root outputs are
kept (`_get_final_outputs`). -/
def FuzzyNetwork.eval_tsk (net : FuzzyNetwork) (inputs : Inputs) :
    Except String (List (String × List (GName × NpVal))) := do
  let io ← evalRootsTsk net.groupset net.roots inputs []
  .ok (io.2.filter (fun p => net.roots.names.contains p.1))

/-- Arguments of a Python call to the static `FIS.defuzz_mamdani`, whose
signature has exactly one positional parameter (the (domain, codomains)
tuple).  CPython checks the arity before the body runs: a call with two
positional arguments raises TypeError. -/
inductive DefuzzArgs where
  | one (mamdani_output : List ℚ × Codom)
  | two (domain : List ℚ) (codomain : Codom)

def typeErrMsg : String :=
  "TypeError: defuzz_mamdani() takes 1 positional argument but 2 were given"

def callDefuzzMamdani : DefuzzArgs → Except String NpVal
  | .one out => FIS.defuzz_mamdani out
  | .two _ _ => .error typeErrMsg

/-- The per-branch defuzzification of `_eval_subtree` (fn_type "mam"): each
of the branch's Mamdani outputs is passed to `branch.defuzz_mamdani(*mam_fn)`
— two positional arguments against the single-tuple signature. -/
def defuzzAll : List (GName × (List ℚ × Codom)) →
    Except String (List (GName × NpVal))
  | [] => .ok []
  | p :: rest => do
      let v ← callDefuzzMamdani (.two p.2.1 p.2.2)
      let rest' ← defuzzAll rest
      .ok ((p.1, v) :: rest')

/-- `FuzzyNetwork.defuzz_mamdani` (static): forwards its two positional
arguments to `FIS.defuzz_mamdani`, which accepts a single tuple. -/
def FuzzyNetwork.defuzz_mamdani (domain : List ℚ) (codomain : Codom) :
    Except String NpVal :=
  callDefuzzMamdani (.two domain codomain)

/- Mamdani traversal of `FuzzyNetwork._eval_subtree` (fn_type "mam"): like
the TSK traversal, but each branch output is defuzzified by
`branch.defuzz_mamdani(*mam_fn)` — two positional arguments to the
single-tuple static method — before being merged into the inputs. -/
mutual
def evalSubtreeMam (gs : FuzzyGroupset) (numPts : Nat) :
    FNodeList → Inputs → List (String × List (GName × (List ℚ × Codom))) →
    Except String (Inputs × List (String × List (GName × (List ℚ × Codom))))
  | .nil, ins, outs => .ok (ins, outs)
  | .cons b rest, ins, outs => do
      let io ← evalBranchMam gs numPts b ins outs
      evalSubtreeMam gs numPts rest io.1 io.2
def evalBranchMam (gs : FuzzyGroupset) (numPts : Nat) (b : FNode) (ins : Inputs)
    (outs : List (String × List (GName × (List ℚ × Codom)))) :
    Except String (Inputs × List (String × List (GName × (List ℚ × Codom)))) :=
  match b with
  | .node name rs branches => do
      let io ← evalSubtreeMam gs numPts branches ins outs
      let new ← FIS.eval_mamdani ⟨gs, rs⟩ io.1 numPts
      let defz ← defuzzAll new
      .ok (updateInputs io.1 defz, outputsInsert io.2 name new)
end

/-- The root loop of `FuzzyNetwork.eval_mamdani`. -/
def evalRootsMam (gs : FuzzyGroupset) (numPts : Nat) :
    FNodeList → Inputs → List (String × List (GName × (List ℚ × Codom))) →
    Except String (Inputs × List (String × List (GName × (List ℚ × Codom))))
  | .nil, ins, outs => .ok (ins, outs)
  | .cons r rest, ins, outs =>
      match r with
      | .node name rs branches => do
          let io ← evalSubtreeMam gs numPts branches ins outs
          let rootOut ← FIS.eval_mamdani ⟨gs, rs⟩ io.1 numPts
          evalRootsMam gs numPts rest io.1 (outputsInsert io.2 name rootOut)

/-- `FuzzyNetwork.eval_mamdani` with return_all = False. -/
def FuzzyNetwork.eval_mamdani (net : FuzzyNetwork) (inputs : Inputs) (numPts : Nat) :
    Except String (List (String × List (GName × (List ℚ × Codom)))) := do
  let io ← evalRootsMam net.groupset numPts net.roots inputs []
  .ok (io.2.filter (fun p => net.roots.names.contains p.1))

-- ---------------------------------------------------------------------------
-- Specification-side helpers used in theorem statements
-- ---------------------------------------------------------------------------

/-- Number of elements held by a shape. -/
def Shape.card : Shape → Nat
  | .scalar => 1
  | .arr n => n

/-- Shape after the `.item()` collapse: a size-one array becomes a scalar,
everything else is unchanged. -/
def Shape.collapse : Shape → Shape
  | .arr 1 => .scalar
  | s => s

/-- The aggregation described by the specification: a seed accumulator
combined left-to-right with each later antecedent's membership, by
elementwise minimum when it is AND and elementwise maximum when OR. -/
def foldAgg : NpVal → List (Bool × NpVal) → Option NpVal
  | acc, [] => some acc
  | acc, bm :: rest => (if bm.1 then npMin acc bm.2 else npMax acc bm.2).bind (foldAgg · rest)

/-- Center (representative value) of `groupset[g][fn]`, with junk 0 when
the lookup fails (used only under lookup-success hypotheses). -/
def centerD (gs : FuzzyGroupset) (g : GName) (fn : String) : ℚ :=
  match lookupFn gs g fn with
  | some f => f.center
  | none => 0

/-- Total same-shape elementwise sum of a list of values (the value
`npStackSum` returns on success). -/
def npSumD : List NpVal → NpVal
  | [] => .scalar 0
  | v :: vs => vs.foldl (zipSame (· + ·)) v

/-- Lookup `memberships[g][fn]` in the nested output dict. -/
def mdLookup (d : MembDict) (g : GName) (fn : String) : Option NpVal :=
  (d.find? (fun gi => gi.1 == g)).bind
    (fun gi => (gi.2.find? (fun p => p.1 == fn)).map (·.2))

/-- The firing strengths among the rule outputs `ts` that are routed to the
consequent pair (g, fn), in rule order. -/
def pairStrengths (ts : List (GName × String × NpVal)) (g : GName) (fn : String) :
    List NpVal :=
  (ts.filter (fun t => t.1 == g && t.2.1 == fn)).map (·.2.2)

/-- The nested dict has an entry for group g. -/
def mdHasKey (d : MembDict) (g : GName) : Prop :=
  ∃ gi ∈ d, gi.1 = g

/-- Lookup `inner[fn]` in a group's inner dict. -/
def innerLookup (inner : MembInner) (fn : String) : Option NpVal :=
  (inner.find? (fun p => p.1 == fn)).map (·.2)

/-- Fold a list of further strengths into an optional accumulated strength
by elementwise addition (the specification's accumulate-by-addition). -/
def addAll (o : Option NpVal) (vs : List NpVal) : Option NpVal :=
  vs.foldl (fun acc v =>
    match acc with
    | none => some v
    | some u => some (zipSame (· + ·) u v)) o

/- A branch node forces the network-level Mamdani defuzzification call when
it carries at least one rule (its Mamdani output dict is then nonempty, so
`branch.defuzz_mamdani(*mam_fn)` runs on it) or when some deeper branch
does. -/
mutual
def FNode.forcesDefuzz : FNode → Bool
  | .node _ rs b => !rs.rules.isEmpty || b.anyForcesDefuzz
def FNodeList.anyForcesDefuzz : FNodeList → Bool
  | .nil => false
  | .cons h t => h.forcesDefuzz || t.anyForcesDefuzz
end

/-- Some root's branch subtree forces the defuzz call, i.e. some non-root
node carries at least one rule. -/
def FNodeList.anyRootForcesDefuzz : FNodeList → Bool
  | .nil => false
  | .cons h t => h.branches.anyForcesDefuzz || t.anyRootForcesDefuzz

-- ---------------------------------------------------------------------------
-- Concrete instances (the source's own temperature/heater example) used to
-- evaluate the development on explicit inputs
-- ---------------------------------------------------------------------------

def exCold : FuzzyFunc := ⟨"cold", "leftedge", .linear [30, 40] [1, 0], 30⟩

def exWarm : FuzzyFunc :=
  ⟨"warm", "trapezoidal", .linear [30, 40, 60, 70] [0, 1, 1, 0], 50⟩

def exHot : FuzzyFunc := ⟨"hot", "rightedge", .linear [60, 70] [0, 1], 70⟩

def exOff : FuzzyFunc := ⟨"off", "leftedge", .linear [1/10, 2/10] [1, 0], 1/10⟩

def exMed : FuzzyFunc :=
  ⟨"medium", "trapezoidal", .linear [1/10, 2/10, 8/10, 9/10] [0, 1, 1, 0], 1/2⟩

def exOn : FuzzyFunc := ⟨"on", "rightedge", .linear [8/10, 9/10] [0, 1], 9/10⟩

def exGroupset : FuzzyGroupset :=
  ⟨[⟨"temperature", (30, 70), [exCold, exWarm, exHot]⟩,
    ⟨"heater", (0, 1), [exOff, exMed, exOn]⟩]⟩

def exRules : FuzzyRuleset :=
  ⟨[FuzzyRule.ofText "if temperature is cold then heater is on",
    FuzzyRule.ofText "if temperature is warm then heater is medium",
    FuzzyRule.ofText "if temperature is hot then heater is off"]⟩

def exFIS : FIS := ⟨exGroupset, exRules⟩

def exInput : Inputs :=
  fun g => if g = some "temperature" then some (.scalar 35) else none

def exInputArr1 : Inputs :=
  fun g => if g = some "temperature" then some (.arr [35]) else none

def exAndRule : FuzzyRule :=
  FuzzyRule.ofText "if temperature is cold and temperature is warm then heater is on"

/-- A one-rule FIS whose single rule cannot fire at high temperatures: used
to exhibit the zero-denominator TSK behaviour. -/
def exColdOnlyFIS : FIS :=
  ⟨exGroupset, ⟨[FuzzyRule.ofText "if temperature is cold then heater is on"]⟩⟩

def exInput100 : Inputs :=
  fun g => if g = some "temperature" then some (.scalar 100) else none

/-- Parent ruleset of the two-level network example: its sole antecedent
group is "heater", the sole output group of the child's exRules. -/
def exParentRules : FuzzyRuleset :=
  ⟨[FuzzyRule.ofText "if heater is on then temperature is hot"]⟩

/-- The accumulated (pre-normalization) memberships of exFIS at
temperature = 35: cold and warm both fire at 1/2, hot at 0. -/
def exMd : MembDict :=
  [(some "heater",
    [("on", NpVal.scalar (1/2)), ("medium", NpVal.scalar (1/2)),
     ("off", NpVal.scalar 0)])]

-- ===========================================================================
-- Lemmas: values and shapes
-- ===========================================================================

theorem NpVal.size_eq_card (v : NpVal) : v.size = v.shape.card := by
  cases v <;> rfl

theorem NpVal.map_shape (f : ℚ → ℚ) (v : NpVal) : (v.map f).shape = v.shape := by
  cases v <;> simp [NpVal.map, NpVal.shape]

theorem NpVal.map_get (f : ℚ → ℚ) (v : NpVal) (i : Nat) (hi : i < v.size) :
    (v.map f).get i = f (v.get i) := by
  cases v with
  | scalar x => rfl
  | arr xs =>
      have hi' : i < xs.length := by simpa [NpVal.size] using hi
      simp only [NpVal.map, NpVal.get]
      rw [List.getD_eq_getElem _ _ (by simpa using hi'), List.getD_eq_getElem _ _ hi']
      simp

theorem NpVal.ext_get : ∀ {u v : NpVal}, u.shape = v.shape →
    (∀ i, i < u.size → u.get i = v.get i) → u = v
  | .scalar a, .scalar b, _, h => by
      have := h 0 (by simp [NpVal.size])
      simpa [NpVal.get] using this
  | .arr as, .arr bs, hs, h => by
      have hlen : as.length = bs.length := by simpa [NpVal.shape] using hs
      have : as = bs := by
        apply List.ext_getElem hlen
        intro i h1 h2
        have := h i (by simpa [NpVal.size] using h1)
        rw [NpVal.get, NpVal.get, List.getD_eq_getElem _ _ h1,
          List.getD_eq_getElem _ _ h2] at this
        exact this
      rw [this]
  | .scalar _, .arr _, hs, _ => by simp [NpVal.shape] at hs
  | .arr _, .scalar _, hs, _ => by simp [NpVal.shape] at hs

theorem zipSame_shape (f : ℚ → ℚ → ℚ) : ∀ {u v : NpVal}, u.shape = v.shape →
    (zipSame f u v).shape = u.shape
  | .scalar _, .scalar _, _ => rfl
  | .arr as, .arr bs, h => by
      have hlen : as.length = bs.length := by simpa [NpVal.shape] using h
      simp [zipSame, NpVal.shape, List.length_zipWith, hlen]
  | .scalar _, .arr _, h => by simp [NpVal.shape] at h
  | .arr _, .scalar _, h => by simp [NpVal.shape] at h

theorem zipSame_get (f : ℚ → ℚ → ℚ) : ∀ {u v : NpVal}, u.shape = v.shape →
    ∀ i, i < u.size → (zipSame f u v).get i = f (u.get i) (v.get i)
  | .scalar _, .scalar _, _, _, _ => rfl
  | .arr as, .arr bs, h, i, hi => by
      have hlen : as.length = bs.length := by simpa [NpVal.shape] using h
      have hia : i < as.length := by simpa [NpVal.size] using hi
      have hib : i < bs.length := hlen ▸ hia
      have hiz : i < (List.zipWith f as bs).length := by
        simp [List.length_zipWith, hlen, hib]
      rw [zipSame, NpVal.get, NpVal.get, NpVal.get,
        List.getD_eq_getElem _ _ hiz, List.getD_eq_getElem _ _ hia,
        List.getD_eq_getElem _ _ hib]
      exact List.getElem_zipWith
  | .scalar _, .arr _, h, _, _ => by simp [NpVal.shape] at h
  | .arr _, .scalar _, h, _, _ => by simp [NpVal.shape] at h

theorem npZip_same (f : ℚ → ℚ → ℚ) : ∀ {u v : NpVal}, u.shape = v.shape →
    npZip f u v = some (zipSame f u v)
  | .scalar _, .scalar _, _ => rfl
  | .arr as, .arr bs, h => by
      have hlen : as.length = bs.length := by simpa [NpVal.shape] using h
      simp [npZip, zipSame, hlen]
  | .scalar _, .arr _, h => by simp [NpVal.shape] at h
  | .arr _, .scalar _, h => by simp [NpVal.shape] at h

theorem npZip_scalar_left (f : ℚ → ℚ → ℚ) (a : ℚ) (v : NpVal) :
    npZip f (.scalar a) v = some (v.map (fun b => f a b)) := by
  cases v <;> rfl

theorem npCollapse_shape (v : NpVal) : (npCollapse v).shape = v.shape.collapse := by
  match v with
  | .scalar x => rfl
  | .arr [] => rfl
  | .arr [x] => rfl
  | .arr (x :: y :: xs) => simp [npCollapse, NpVal.shape, Shape.collapse]

theorem NpVal.le_iff : ∀ {u v : NpVal},
    u.le v ↔ (u.shape = v.shape ∧ ∀ i, i < u.size → u.get i ≤ v.get i)
  | .scalar a, .scalar b => by
      constructor
      · intro h; exact ⟨rfl, fun i _ => h⟩
      · intro h; exact h.2 0 (by simp [NpVal.size])
  | .arr as, .arr bs => by
      rw [NpVal.le, List.forall₂_iff_get]
      constructor
      · rintro ⟨hlen, h⟩
        refine ⟨by simp [NpVal.shape, hlen], fun i hi => ?_⟩
        have hia : i < as.length := by simpa [NpVal.size] using hi
        have hib : i < bs.length := hlen ▸ hia
        have := h i hia hib
        rw [NpVal.get, NpVal.get, List.getD_eq_getElem _ _ hia,
          List.getD_eq_getElem _ _ hib]
        simpa [List.get_eq_getElem] using this
      · rintro ⟨hs, h⟩
        have hlen : as.length = bs.length := by simpa [NpVal.shape] using hs
        refine ⟨hlen, fun i hia hib => ?_⟩
        have := h i (by simpa [NpVal.size] using hia)
        rw [NpVal.get, NpVal.get, List.getD_eq_getElem _ _ hia,
          List.getD_eq_getElem _ _ hib] at this
        simpa [List.get_eq_getElem] using this
  | .scalar _, .arr _ => by
      simp [NpVal.le, NpVal.shape]
  | .arr _, .scalar _ => by
      simp [NpVal.le, NpVal.shape]

theorem NpVal.le_trans {u v w : NpVal} (h1 : u.le v) (h2 : v.le w) : u.le w := by
  rw [NpVal.le_iff] at h1 h2 ⊢
  refine ⟨h1.1.trans h2.1, fun i hi => ?_⟩
  have hv : i < v.size := by
    rw [NpVal.size_eq_card, ← h1.1, ← NpVal.size_eq_card]; exact hi
  exact (h1.2 i hi).trans (h2.2 i hv)

theorem zipSame_min_le_left {u v : NpVal} (h : u.shape = v.shape) :
    (zipSame min u v).le u := by
  rw [NpVal.le_iff]
  refine ⟨zipSame_shape min h, fun i hi => ?_⟩
  have hi' : i < u.size := by
    rw [NpVal.size_eq_card, ← zipSame_shape min h, ← NpVal.size_eq_card]; exact hi
  rw [zipSame_get min h i hi']
  exact min_le_left _ _

theorem zipSame_min_le_right {u v : NpVal} (h : u.shape = v.shape) :
    (zipSame min u v).le v := by
  rw [NpVal.le_iff]
  refine ⟨(zipSame_shape min h).trans h, fun i hi => ?_⟩
  have hi' : i < u.size := by
    rw [NpVal.size_eq_card, ← zipSame_shape min h, ← NpVal.size_eq_card]; exact hi
  rw [zipSame_get min h i hi']
  exact min_le_right _ _

theorem le_zipSame_max_left {u v : NpVal} (h : u.shape = v.shape) :
    u.le (zipSame max u v) := by
  rw [NpVal.le_iff]
  refine ⟨(zipSame_shape max h).symm, fun i hi => ?_⟩
  rw [zipSame_get max h i hi]
  exact le_max_left _ _

theorem le_zipSame_max_right {u v : NpVal} (h : u.shape = v.shape) :
    v.le (zipSame max u v) := by
  rw [NpVal.le_iff]
  refine ⟨h.symm.trans (zipSame_shape max h).symm, fun i hi => ?_⟩
  have hi' : i < u.size := by
    rw [NpVal.size_eq_card, h, ← NpVal.size_eq_card]
    exact hi
  rw [zipSame_get max h i hi']
  exact le_max_right _ _

-- ===========================================================================
-- Piecewise-linear template lemmas and C5
-- ===========================================================================

theorem npSort_pair (a b : ℚ) : npSort [a, b] = if a ≤ b then [a, b] else [b, a] := by
  simp [npSort, List.insertionSort, List.orderedInsert]

theorem hasInfSlope_pair_false {p q : ℚ} (ys : List ℚ) (h : p ≠ q) :
    hasInfSlope [p, q] ys = false := by
  simp [hasInfSlope, Ne.symm h]

theorem ofTemplate_leftedge (nm : String) (a b : ℚ) (hab : a ≠ b) :
    FuzzyFunc.ofTemplate nm [a, b] "leftedge" =
      .ok ⟨nm, "leftedge", .linear (npSort [a, b]) [1, 0],
           centerOf (npSort [a, b]) [1, 0]⟩ := by
  have hslope : hasInfSlope (npSort [a, b]) [1, 0] = false := by
    rw [npSort_pair]
    rcases le_or_lt a b with h | h
    · rw [if_pos h]; exact hasInfSlope_pair_false _ hab
    · rw [if_neg (not_le.mpr h)]; exact hasInfSlope_pair_false _ (Ne.symm hab)
  simp [FuzzyFunc.ofTemplate, buildGeneric, hslope]

theorem ofTemplate_rightedge (nm : String) (a b : ℚ) (hab : a ≠ b) :
    FuzzyFunc.ofTemplate nm [a, b] "rightedge" =
      .ok ⟨nm, "rightedge", .linear (npSort [a, b]) [0, 1],
           centerOf (npSort [a, b]) [0, 1]⟩ := by
  have hslope : hasInfSlope (npSort [a, b]) [0, 1] = false := by
    rw [npSort_pair]
    rcases le_or_lt a b with h | h
    · rw [if_pos h]; exact hasInfSlope_pair_false _ hab
    · rw [if_neg (not_le.mpr h)]; exact hasInfSlope_pair_false _ (Ne.symm hab)
  simp [FuzzyFunc.ofTemplate, buildGeneric, hslope]

theorem edge_sum (p q x : ℚ) (hpq : p < q) :
    linearEval [p, q] [1, 0] x + linearEval [p, q] [0, 1] x = 1 := by
  have hqp : q - p ≠ 0 := sub_ne_zero.mpr hpq.ne'
  unfold linearEval searchsorted
  rcases le_or_lt x p with h1 | h1
  · have np : ¬ p < x := not_lt.mpr h1
    have nq : ¬ q < x := not_lt.mpr (h1.trans hpq.le)
    simp [List.countP_cons, np, nq, linSegEval]
  · rcases le_or_lt x q with h2 | h2
    · have nq : ¬ q < x := not_lt.mpr h2
      simp only [List.countP_cons, List.countP_nil, decide_eq_true_eq, h1, nq,
        if_true, if_false, Nat.zero_add]
      norm_num [linSegEval]
      try field_simp
      try ring
    · simp only [List.countP_cons, List.countP_nil, decide_eq_true_eq, h1, h2,
        if_true, Nat.zero_add]
      norm_num [linSegEval]

/-- C5: a leftedge / rightedge pair built on the same two distinct control
points is complementary: for every input x the two memberships sum to 1. -/
theorem c5_edge_functions_complementary (nm1 nm2 : String) (a b x : ℚ)
    (hab : a ≠ b) :
    ∃ fl fr u v,
      FuzzyFunc.ofTemplate nm1 [a, b] "leftedge" = .ok fl ∧
      FuzzyFunc.ofTemplate nm2 [a, b] "rightedge" = .ok fr ∧
      fl.call (.scalar x) = .ok (.scalar u) ∧
      fr.call (.scalar x) = .ok (.scalar v) ∧
      u + v = 1 := by
  refine ⟨_, _, _, _, ofTemplate_leftedge nm1 a b hab,
    ofTemplate_rightedge nm2 a b hab, rfl, rfl, ?_⟩
  show linearEval (npSort [a, b]) [1, 0] x + linearEval (npSort [a, b]) [0, 1] x = 1
  rw [npSort_pair]
  rcases lt_or_gt_of_ne hab with h | h
  · rw [if_pos h.le]; exact edge_sum a b x h
  · rw [if_neg (not_le.mpr h)]; exact edge_sum b a x h

/-- Witness for c5_edge_functions_complementary at a = 0, b = 1, x = 1/2. -/
theorem c5_edge_functions_complementary_witness :
    ((0 : ℚ) ≠ 1) ∧
    ∃ fl fr u v,
      FuzzyFunc.ofTemplate "cold" [0, 1] "leftedge" = .ok fl ∧
      FuzzyFunc.ofTemplate "hot" [0, 1] "rightedge" = .ok fr ∧
      fl.call (.scalar (1/2)) = .ok (.scalar u) ∧
      fr.call (.scalar (1/2)) = .ok (.scalar v) ∧
      u + v = 1 :=
  ⟨by norm_num, c5_edge_functions_complementary "cold" "hot" 0 1 (1/2) (by norm_num)⟩

-- ===========================================================================
-- C4: centroid defuzzification
-- ===========================================================================

theorem triEval_eq (p0 c p1 : ℚ) (h0 : p0 < c) (h1 : c < p1) (x : ℚ) :
    linearEval [p0, c, p1] [0, 1, 0] x =
      if x ≤ p0 then 0
      else if x ≤ c then (x - p0) / (c - p0)
      else if x ≤ p1 then 1 - (x - c) / (p1 - c)
      else 0 := by
  have hc0 : c - p0 ≠ 0 := sub_ne_zero.mpr h0.ne'
  have hpc : p1 - c ≠ 0 := sub_ne_zero.mpr h1.ne'
  unfold linearEval searchsorted
  rcases le_or_lt x p0 with r0 | r0
  · have n0 : ¬ p0 < x := not_lt.mpr r0
    have n1 : ¬ c < x := not_lt.mpr (r0.trans h0.le)
    have n2 : ¬ p1 < x := not_lt.mpr (r0.trans (h0.trans h1).le)
    simp [List.countP_cons, n0, n1, n2, linSegEval, r0]
  · have hx : ¬ x ≤ p0 := not_le.mpr r0
    rcases le_or_lt x c with r1 | r1
    · have n1 : ¬ c < x := not_lt.mpr r1
      have n2 : ¬ p1 < x := not_lt.mpr (r1.trans h1.le)
      simp only [List.countP_cons, List.countP_nil, decide_eq_true_eq,
        r0, n1, n2, if_true, if_false, Nat.zero_add, hx, r1]
      norm_num [linSegEval]
      try field_simp
      try ring
    · have hxc : ¬ x ≤ c := not_le.mpr r1
      rcases le_or_lt x p1 with r2 | r2
      · have n2 : ¬ p1 < x := not_lt.mpr r2
        simp only [List.countP_cons, List.countP_nil, decide_eq_true_eq,
          r0, r1, n2, if_true, if_false, Nat.zero_add, hx, hxc, r2]
        norm_num [linSegEval]
        try field_simp
        try ring
      · have hxp : ¬ x ≤ p1 := not_le.mpr r2
        simp only [List.countP_cons, List.countP_nil, decide_eq_true_eq,
          r0, r1, r2, if_true, Nat.zero_add, hx, hxc, hxp]
        norm_num [linSegEval]

theorem tri_symm (p0 c p1 : ℚ) (h0 : p0 < c) (h1 : c < p1)
    (hs : c - p0 = p1 - c) (x : ℚ) :
    linearEval [p0, c, p1] [0, 1, 0] (2*c - x) =
      linearEval [p0, c, p1] [0, 1, 0] x := by
  have hp1 : p1 = 2*c - p0 := by linarith
  subst hp1
  have hc0 : c - p0 ≠ 0 := sub_ne_zero.mpr h0.ne'
  have hd : 2*c - p0 - c ≠ 0 := by
    intro h
    exact hc0 (by linarith)
  rw [triEval_eq _ _ _ h0 h1, triEval_eq _ _ _ h0 h1]
  split_ifs <;> first
    | rfl
    | linarith
    | (field_simp; all_goals (first | linarith | ring1 | (left; linarith)))

theorem sum_map_sub (l : List ℚ) (f g : ℚ → ℚ) :
    (l.map (fun t => f t - g t)).sum = (l.map f).sum - (l.map g).sum := by
  induction l with
  | nil => simp
  | cons a l ih =>
      simp only [List.map_cons, List.sum_cons, ih]
      ring

theorem symm_centroid (ds : List ℚ) (c : ℚ) (f : ℚ → ℚ)
    (hsym : ds.map (fun t => 2*c - t) = ds.reverse)
    (hf : ∀ x, f (2*c - x) = f x) :
    (ds.map (fun t => f t * t)).sum = c * (ds.map f).sum := by
  have h1 : (ds.map (fun t => f t * t)).sum
      = ((ds.map (fun t => 2*c - t)).map (fun t => f t * t)).sum := by
    rw [hsym, List.map_reverse, List.sum_reverse]
  rw [List.map_map] at h1
  have h2 : ((fun t => f t * t) ∘ (fun t => 2*c - t))
      = fun t => f t * (2*c - t) := by
    funext t
    simp only [Function.comp_apply]
    rw [hf t]
  rw [h2] at h1
  have h3 : (fun t => f t * (2*c - t)) = (fun t => (2*c * f t) - (f t * t)) := by
    funext t
    ring
  rw [h3, sum_map_sub ds (fun t => 2*c * f t) (fun t => f t * t),
    List.sum_map_mul_left] at h1
  linarith [h1]

/-- C4: defuzz_mamdani on a single codomain of the domain's length returns
sum(codomain * domain) / sum(codomain); in particular, on a codomain that
samples a symmetric triangle over a domain sampled symmetrically about the
triangle's peak, it returns the peak's location. -/
theorem c4_defuzz_mamdani_centroid (ds ys : List ℚ)
    (hlen : ys.length = ds.length) (hnz : ys.sum ≠ 0) :
    FIS.defuzz_mamdani (ds, .one ys)
        = .ok (.scalar ((List.zipWith (· * ·) ys ds).sum / ys.sum)) ∧
    (∀ p0 c p1, p0 < c → c < p1 → c - p0 = p1 - c →
      ds.map (fun t => 2*c - t) = ds.reverse →
      ys = ds.map (linearEval [p0, c, p1] [0, 1, 0]) →
      FIS.defuzz_mamdani (ds, .one ys) = .ok (.scalar c)) := by
  have hmain : FIS.defuzz_mamdani (ds, Codom.one ys)
      = .ok (.scalar ((List.zipWith (· * ·) ys ds).sum / ys.sum)) := by
    simp [FIS.defuzz_mamdani, hlen]
  refine ⟨hmain, fun p0 c p1 h0 h1 hs hsym hys => ?_⟩
  rw [hmain]
  have hz : List.zipWith (· * ·) ys ds
      = ds.map (fun t => linearEval [p0, c, p1] [0, 1, 0] t * t) := by
    rw [hys, List.zipWith_map_left, List.zipWith_same]
  rw [hz, symm_centroid ds c _ hsym (tri_symm p0 c p1 h0 h1 hs), hys]
  rw [mul_div_assoc, div_self (by rw [hys] at hnz; exact hnz), mul_one]

/-- Witness for c4_defuzz_mamdani_centroid: the triangle [0, 1, 2] sampled
at [0, 1/2, 1, 3/2, 2] defuzzifies to its peak 1. -/
theorem c4_defuzz_mamdani_centroid_witness :
    FIS.defuzz_mamdani
      ([0, 1/2, 1, 3/2, 2],
        .one ([0, 1/2, 1, 3/2, 2].map (linearEval [0, 1, 2] [0, 1, 0])))
      = .ok (.scalar 1) :=
  (c4_defuzz_mamdani_centroid [0, 1/2, 1, 3/2, 2] _
      (by simp) (by with_unfolding_all decide)).2
    0 1 2 (by norm_num) (by norm_num) (by norm_num)
    (by with_unfolding_all decide) rfl

-- ===========================================================================
-- C7: rule parsing of malformed text
-- ===========================================================================

/-- C7 counterexample: rule construction does not fail on text violating the
grammar.  `FuzzyRule("if temperature is cold")` — no "then", hence no
consequent clause — is silently accepted: `_read_rule` has no failure path
and `__init__` stores its output, here a rule whose consequent is None.
Under the claim, this malformed text should have raised a parse error. -/
theorem c7_parse_error_counterexample :
    FuzzyRule.ofText "if temperature is cold"
      = { antecedents := [⟨some "temperature", "cold", false⟩],
          consequent := none } := by
  decide

/-- C7 amended: rule construction never raises a parse error; text violating
the grammar is silently accepted.  A missing "then" yields a rule whose
consequent is None; a missing "is" silently drops the clause; extra clauses
after the consequent overwrite it, the last word winning. -/
theorem c7_parse_silently_accepts :
    (FuzzyRule.ofText "if temperature is cold"
      = { antecedents := [⟨some "temperature", "cold", false⟩],
          consequent := none }) ∧
    (FuzzyRule.ofText "if temperature cold then heater is on"
      = { antecedents := [],
          consequent := some ⟨some "heater", "on"⟩ }) ∧
    (FuzzyRule.ofText "if t is cold then h is on extra is clause"
      = { antecedents := [⟨some "t", "cold", false⟩],
          consequent := some ⟨some "h", "clause"⟩ }) := by
  refine ⟨?_, ?_, ?_⟩ <;> decide

-- ===========================================================================
-- Rule evaluation lemmas (C1, C8)
-- ===========================================================================

theorem NpVal.le_refl (v : NpVal) : v.le v := by
  rw [NpVal.le_iff]
  exact ⟨rfl, fun i _ => le_rfl⟩

theorem FuzzyFunc.call_ok {f : FuzzyFunc} (h : f.impl ≠ FnImpl.tsk) (v : NpVal) :
    f.call v = .ok (v.map f.impl.evalScalar) := by
  rcases f with ⟨n, t, impl, c⟩
  cases impl with
  | linear ps ys => rfl
  | special fo ps => rfl
  | tsk => exact absurd rfl h

theorem anteMembership_ok {gs : FuzzyGroupset} {x : Inputs} {a : Antecedent}
    {w : NpVal} {f : FuzzyFunc}
    (hw : x a.group_name = some w)
    (hf : lookupFn gs a.group_name a.fn_name = some f)
    (ht : f.impl ≠ FnImpl.tsk) :
    anteMembership gs x a = .ok (w.map f.impl.evalScalar) := by
  simp only [anteMembership, hw, hf]
  exact FuzzyFunc.call_ok ht w

theorem anteMemberships_length (gs : FuzzyGroupset) (x : Inputs) :
    ∀ (as : List Antecedent) (ms : List NpVal),
      anteMemberships gs x as = .ok ms → ms.length = as.length
  | [], ms, h => by
      simp only [anteMemberships] at h
      cases h
      rfl
  | a :: rest, ms, h => by
      simp only [anteMemberships] at h
      cases hfa : anteMembership gs x a with
      | error e => rw [hfa] at h; simp [Bind.bind, Except.bind] at h
      | ok m =>
          rw [hfa] at h
          cases hft : anteMemberships gs x rest with
          | error e => rw [hft] at h; simp [Bind.bind, Except.bind] at h
          | ok ms' =>
              rw [hft] at h
              simp only [Bind.bind, Except.bind] at h
              cases h
              simp [anteMemberships_length gs x rest ms' hft]

theorem foldAgg_ok (sh : Shape) :
    ∀ (pairs : List (Bool × NpVal)) (acc : NpVal),
      acc.shape = sh → (∀ p ∈ pairs, (p.2 : NpVal).shape = sh) →
      ∃ agg, foldAgg acc pairs = some agg ∧ agg.shape = sh
  | [], acc, ha, _ => ⟨acc, rfl, ha⟩
  | p :: rest, acc, ha, hp => by
      have hps : p.2.shape = sh := hp p (by simp)
      have hshape : acc.shape = p.2.shape := by rw [ha, hps]
      have hzs : (zipSame (if p.1 then min else max) acc p.2).shape = sh := by
        rw [zipSame_shape _ hshape, ha]
      obtain ⟨agg, h1, h2⟩ := foldAgg_ok sh rest
        (zipSame (if p.1 then min else max) acc p.2) hzs
        (fun q hq => hp q (by simp [hq]))
      refine ⟨agg, ?_, h2⟩
      rw [foldAgg]
      cases hb : p.1 with
      | true =>
          rw [if_pos rfl, npMin, npZip_same min hshape, Option.some_bind]
          rw [hb] at h1
          simpa using h1
      | false =>
          rw [if_neg (by simp), npMax, npZip_same max hshape, Option.some_bind]
          rw [hb] at h1
          simpa using h1

theorem foldAgg_and_le (sh : Shape) :
    ∀ (pairs : List (Bool × NpVal)) (acc agg : NpVal),
      acc.shape = sh → (∀ p ∈ pairs, (p.2 : NpVal).shape = sh) →
      (∀ p ∈ pairs, p.1 = true) →
      foldAgg acc pairs = some agg →
      agg.le acc ∧ ∀ p ∈ pairs, agg.le p.2
  | [], acc, agg, _, _, _, h => by
      cases h
      exact ⟨NpVal.le_refl acc, by simp⟩
  | p :: rest, acc, agg, ha, hp, hand, h => by
      have hps : p.2.shape = sh := hp p (by simp)
      have hshape : acc.shape = p.2.shape := by rw [ha, hps]
      have hb : p.1 = true := hand p (by simp)
      rw [foldAgg, hb, if_pos rfl, npMin, npZip_same min hshape,
        Option.some_bind] at h
      have hzs : (zipSame min acc p.2).shape = sh := by
        rw [zipSame_shape _ hshape, ha]
      obtain ⟨h1, h2⟩ := foldAgg_and_le sh rest (zipSame min acc p.2) agg hzs
        (fun q hq => hp q (by simp [hq])) (fun q hq => hand q (by simp [hq])) h
      refine ⟨NpVal.le_trans h1 (zipSame_min_le_left hshape), ?_⟩
      intro q hq
      rcases List.mem_cons.mp hq with hq | hq
      · rw [hq]
        exact NpVal.le_trans h1 (zipSame_min_le_right hshape)
      · exact h2 q hq

theorem foldAgg_or_ge (sh : Shape) :
    ∀ (pairs : List (Bool × NpVal)) (acc agg : NpVal),
      acc.shape = sh → (∀ p ∈ pairs, (p.2 : NpVal).shape = sh) →
      (∀ p ∈ pairs, p.1 = false) →
      foldAgg acc pairs = some agg →
      acc.le agg ∧ ∀ p ∈ pairs, (p.2 : NpVal).le agg
  | [], acc, agg, _, _, _, h => by
      cases h
      exact ⟨NpVal.le_refl acc, by simp⟩
  | p :: rest, acc, agg, ha, hp, hor, h => by
      have hps : p.2.shape = sh := hp p (by simp)
      have hshape : acc.shape = p.2.shape := by rw [ha, hps]
      have hb : p.1 = false := hor p (by simp)
      rw [foldAgg, hb, if_neg (by simp), npMax, npZip_same max hshape,
        Option.some_bind] at h
      have hzs : (zipSame max acc p.2).shape = sh := by
        rw [zipSame_shape _ hshape, ha]
      obtain ⟨h1, h2⟩ := foldAgg_or_ge sh rest (zipSame max acc p.2) agg hzs
        (fun q hq => hp q (by simp [hq])) (fun q hq => hor q (by simp [hq])) h
      refine ⟨NpVal.le_trans (le_zipSame_max_left hshape) h1, ?_⟩
      intro q hq
      rcases List.mem_cons.mp hq with hq | hq
      · rw [hq]
        exact NpVal.le_trans (le_zipSame_max_right hshape) h1
      · exact h2 q hq

theorem evalLoop_eq_foldAgg (gs : FuzzyGroupset) (x : Inputs) :
    ∀ (as : List Antecedent) (ms : List NpVal) (acc : NpVal),
      anteMemberships gs x as = .ok ms →
      evalLoop gs x as (some acc) =
        (match foldAgg acc (List.zip (as.map (·.is_and)) ms) with
          | some agg => .ok (some agg)
          | none => .error broadcastErrMsg)
  | [], ms, acc, h => by
      simp only [anteMemberships] at h
      cases h
      rfl
  | a :: rest, ms, acc, h => by
      simp only [anteMemberships] at h
      cases hfa : anteMembership gs x a with
      | error e => rw [hfa] at h; simp [Bind.bind, Except.bind] at h
      | ok m =>
          rw [hfa] at h
          cases hft : anteMemberships gs x rest with
          | error e => rw [hft] at h; simp [Bind.bind, Except.bind] at h
          | ok ms' =>
              rw [hft] at h
              simp only [Bind.bind, Except.bind] at h
              cases h
              rw [evalLoop]
              simp only [hfa, List.map_cons, List.zip_cons_cons, foldAgg,
                Bind.bind, Except.bind]
              cases hcomb : (if a.is_and then npMin acc m else npMax acc m) with
              | none => simp only [hcomb, Option.none_bind]
              | some comb =>
                  simp only [hcomb, Option.some_bind]
                  exact evalLoop_eq_foldAgg gs x rest ms' comb hft

theorem evaluate_eq (r : FuzzyRule) (c : Consequent) (x : Inputs)
    (gs : FuzzyGroupset) (a0 : Antecedent) (arest : List Antecedent)
    (m0 : NpVal) (mrest : List NpVal) (agg : NpVal)
    (hc : r.consequent = some c)
    (has : r.antecedents = a0 :: arest)
    (hm0 : anteMembership gs x a0 = .ok m0)
    (hmr : anteMemberships gs x arest = .ok mrest)
    (hagg : foldAgg m0 (List.zip (arest.map (·.is_and)) mrest) = some agg) :
    r.evaluate x gs = .ok (c.group_name, c.fn_name, npCollapse agg) := by
  rw [FuzzyRule.evaluate, has, evalLoop, hm0]
  simp only [Bind.bind, Except.bind]
  rw [evalLoop_eq_foldAgg gs x arest mrest m0 hmr, hagg]
  simp [hc]

/-- Helper for the aggregation claims: full characterization of
FuzzyRule.evaluate in terms of the specification's left-to-right fold,
with the AND / OR bounds. -/
theorem evaluate_agg_spec (r : FuzzyRule) (c : Consequent)
    (x : Inputs) (gs : FuzzyGroupset) (ms : List NpVal) (sh : Shape)
    (hc : r.consequent = some c)
    (hm : anteMemberships gs x r.antecedents = .ok ms)
    (hne : ms ≠ [])
    (hsh : ∀ m ∈ ms, m.shape = sh) :
    ∃ m0 mrest agg,
      ms = m0 :: mrest ∧
      foldAgg m0 (List.zip ((r.antecedents.map (·.is_and)).tail) mrest)
        = some agg ∧
      r.evaluate x gs = .ok (c.group_name, c.fn_name, npCollapse agg) ∧
      agg.shape = sh ∧
      ((∀ a ∈ r.antecedents.tail, a.is_and = true) → ∀ m ∈ ms, agg.le m) ∧
      ((∀ a ∈ r.antecedents.tail, a.is_and = false) → ∀ m ∈ ms, m.le agg) := by
  cases has : r.antecedents with
  | nil =>
      rw [has] at hm
      simp only [anteMemberships] at hm
      cases hm
      exact absurd rfl hne
  | cons a0 arest =>
  rw [has] at hm
  simp only [anteMemberships] at hm
  cases hfa : anteMembership gs x a0 with
  | error e => rw [hfa] at hm; simp [Bind.bind, Except.bind] at hm
  | ok m0 =>
  rw [hfa] at hm
  cases hft : anteMemberships gs x arest with
  | error e => rw [hft] at hm; simp [Bind.bind, Except.bind] at hm
  | ok mrest =>
  rw [hft] at hm
  simp only [Bind.bind, Except.bind] at hm
  cases hm
  have hm0sh : m0.shape = sh := hsh m0 (by simp)
  have hpairs : ∀ p ∈ List.zip (arest.map (·.is_and)) mrest,
      (p.2 : NpVal).shape = sh := by
    intro p hp
    have := (List.of_mem_zip hp).2
    exact hsh p.2 (by simp [this])
  obtain ⟨agg, hagg, haggsh⟩ :=
    foldAgg_ok sh (List.zip (arest.map (·.is_and)) mrest) m0 hm0sh hpairs
  have hlen : mrest.length = arest.length := anteMemberships_length gs x arest mrest hft
  have hlenf : (arest.map (·.is_and)).length = mrest.length := by
    simp [hlen]
  have hmem : ∀ m ∈ mrest, ∃ b, (b, m) ∈ List.zip (arest.map (·.is_and)) mrest := by
    intro m hmmem
    obtain ⟨i, hi, hig⟩ := List.mem_iff_getElem.mp hmmem
    have hif : i < (arest.map (·.is_and)).length := by rw [hlenf]; exact hi
    have hiz : i < (List.zip (arest.map (·.is_and)) mrest).length := by
      simp only [List.length_zip, hlenf]
      exact lt_min hi hi
    refine ⟨(arest.map (·.is_and))[i], ?_⟩
    have hz : (List.zip (arest.map (·.is_and)) mrest)[i]
        = ((arest.map (·.is_and))[i], mrest[i]) := List.getElem_zip
    rw [← hig, ← hz]
    exact List.getElem_mem hiz
  refine ⟨m0, mrest, agg, rfl, by simpa [has] using hagg,
    evaluate_eq r c x gs a0 arest m0 mrest agg hc has hfa hft hagg,
    haggsh, ?_, ?_⟩
  · intro hall m hmm
    have hflags : ∀ p ∈ List.zip (arest.map (·.is_and)) mrest, p.1 = true := by
      intro p hp
      have h1 := (List.of_mem_zip hp).1
      obtain ⟨a, ha, hae⟩ := List.mem_map.mp h1
      rw [← hae]
      exact hall a (by simp [has, ha])
    obtain ⟨hacc, hrest⟩ := foldAgg_and_le sh _ m0 agg hm0sh hpairs hflags hagg
    rcases List.mem_cons.mp hmm with hmm | hmm
    · rw [hmm]; exact hacc
    · obtain ⟨b, hb⟩ := hmem m hmm
      exact hrest (b, m) hb
  · intro hall m hmm
    have hflags : ∀ p ∈ List.zip (arest.map (·.is_and)) mrest, p.1 = false := by
      intro p hp
      have h1 := (List.of_mem_zip hp).1
      obtain ⟨a, ha, hae⟩ := List.mem_map.mp h1
      rw [← hae]
      exact hall a (by simp [has, ha])
    obtain ⟨hacc, hrest⟩ := foldAgg_or_ge sh _ m0 agg hm0sh hpairs hflags hagg
    rcases List.mem_cons.mp hmm with hmm | hmm
    · rw [hmm]; exact hacc
    · obtain ⟨b, hb⟩ := hmem m hmm
      exact hrest (b, m) hb

/-- C1: rule evaluation aggregates the antecedent memberships left-to-right
— the first seeds the accumulator, each later AND antecedent takes the
elementwise minimum with it, each later OR antecedent the elementwise
maximum — and returns the aggregate (after the `.item()` collapse of a
size-one value) together with the consequent's group and function names.
Consequently an all-AND rule's firing strength never exceeds any single
clause membership, and an all-OR rule's never falls below any. -/
theorem c1_rule_evaluate_aggregates (r : FuzzyRule) (c : Consequent)
    (x : Inputs) (gs : FuzzyGroupset) (ms : List NpVal) (sh : Shape)
    (hc : r.consequent = some c)
    (hm : anteMemberships gs x r.antecedents = .ok ms)
    (hne : ms ≠ [])
    (hsh : ∀ m ∈ ms, m.shape = sh) :
    ∃ m0 mrest agg,
      ms = m0 :: mrest ∧
      foldAgg m0 (List.zip ((r.antecedents.map (·.is_and)).tail) mrest)
        = some agg ∧
      r.evaluate x gs = .ok (c.group_name, c.fn_name, npCollapse agg) ∧
      agg.shape = sh ∧
      ((∀ a ∈ r.antecedents.tail, a.is_and = true) → ∀ m ∈ ms, agg.le m) ∧
      ((∀ a ∈ r.antecedents.tail, a.is_and = false) → ∀ m ∈ ms, m.le agg) :=
  evaluate_agg_spec r c x gs ms sh hc hm hne hsh

/-- Witness for c1_rule_evaluate_aggregates: the two-antecedent AND rule
"if temperature is cold and temperature is warm then heater is on" at
temperature = 35, where both clause memberships are 1/2. -/
theorem c1_rule_evaluate_aggregates_witness :
    (exAndRule.consequent = some ⟨some "heater", "on"⟩) ∧
    (anteMemberships exGroupset exInput exAndRule.antecedents
      = .ok [.scalar (1/2), .scalar (1/2)]) ∧
    ([NpVal.scalar (1/2), NpVal.scalar (1/2)] ≠ []) ∧
    ∃ m0 mrest agg,
      [NpVal.scalar (1/2), NpVal.scalar (1/2)] = m0 :: mrest ∧
      foldAgg m0 (List.zip ((exAndRule.antecedents.map (·.is_and)).tail) mrest)
        = some agg ∧
      exAndRule.evaluate exInput exGroupset
        = .ok ((⟨some "heater", "on"⟩ : Consequent).group_name,
               (⟨some "heater", "on"⟩ : Consequent).fn_name, npCollapse agg) ∧
      agg.shape = Shape.scalar ∧
      ((∀ a ∈ exAndRule.antecedents.tail, a.is_and = true) →
        ∀ m ∈ [NpVal.scalar (1/2), NpVal.scalar (1/2)], agg.le m) ∧
      ((∀ a ∈ exAndRule.antecedents.tail, a.is_and = false) →
        ∀ m ∈ [NpVal.scalar (1/2), NpVal.scalar (1/2)], m.le agg) :=
  ⟨by with_unfolding_all decide, by with_unfolding_all decide, by decide,
    c1_rule_evaluate_aggregates exAndRule ⟨some "heater", "on"⟩ exInput
      exGroupset [.scalar (1/2), .scalar (1/2)] Shape.scalar
      (by with_unfolding_all decide) (by with_unfolding_all decide)
      (by decide) (by decide)⟩

-- ===========================================================================
-- C8: shape preservation
-- ===========================================================================

/-- C8 counterexample: the rule "if temperature is cold then heater is on"
evaluated on the length-one array input [35] returns the Python scalar 1/2
(via `.item()`), not a length-one array: the firing strength does not have
the same shape as the input bound to the antecedent group. -/
theorem c8_shape_counterexample :
    (FuzzyRule.ofText "if temperature is cold then heater is on").evaluate
        exInputArr1 exGroupset
      = .ok (some "heater", "on", .scalar (1/2)) ∧
    NpVal.shape (.scalar (1/2)) ≠ NpVal.shape (.arr [35]) := by
  constructor
  · with_unfolding_all decide
  · decide

/-- C8 amended: membership-function evaluation is shape-preserving for every
non-tsk function (scalar in, scalar out; array in, same-length array out),
and rule evaluation's firing strength has the shape of the antecedents'
input memberships except that a size-one result is collapsed to a scalar by
`.item()` — in particular a length-one array input yields a scalar. -/
theorem c8_shape_preservation_amended :
    (∀ (f : FuzzyFunc) (v : NpVal), f.impl ≠ FnImpl.tsk →
      ∃ w, f.call v = .ok w ∧ w.shape = v.shape) ∧
    (∀ (r : FuzzyRule) (c : Consequent) (x : Inputs) (gs : FuzzyGroupset)
        (ms : List NpVal) (sh : Shape),
      r.consequent = some c →
      anteMemberships gs x r.antecedents = .ok ms →
      ms ≠ [] →
      (∀ m ∈ ms, m.shape = sh) →
      ∃ out, r.evaluate x gs = .ok (c.group_name, c.fn_name, out) ∧
        out.shape = sh.collapse) := by
  constructor
  · intro f v h
    exact ⟨v.map f.impl.evalScalar, FuzzyFunc.call_ok h v, NpVal.map_shape _ v⟩
  · intro r c x gs ms sh hc hm hne hsh
    obtain ⟨m0, mrest, agg, hms, hagg, heval, haggsh, _, _⟩ :=
      evaluate_agg_spec r c x gs ms sh hc hm hne hsh
    exact ⟨npCollapse agg, heval, by rw [npCollapse_shape, haggsh]⟩

/-- Witness for c8_shape_preservation_amended: the cold membership function
and the cold-rule on a length-three array input (shape preserved); the
length-one collapse is exhibited by the counterexample theorem. -/
theorem c8_shape_preservation_amended_witness :
    (exCold.impl ≠ FnImpl.tsk → ∃ w, exCold.call (.arr [32, 35, 41]) = .ok w ∧
      w.shape = NpVal.shape (.arr [32, 35, 41])) ∧
    ((FuzzyRule.ofText "if temperature is cold then heater is on").consequent
        = some ⟨some "heater", "on"⟩ →
      ∃ out,
        (FuzzyRule.ofText "if temperature is cold then heater is on").evaluate
            (fun g => if g = some "temperature" then some (.arr [32, 35, 41]) else none)
            exGroupset
          = .ok ((⟨some "heater", "on"⟩ : Consequent).group_name,
                 (⟨some "heater", "on"⟩ : Consequent).fn_name, out) ∧
        out.shape = (Shape.arr 3).collapse) :=
  ⟨fun h => (c8_shape_preservation_amended.1 exCold (.arr [32, 35, 41]) h),
   fun hc => (c8_shape_preservation_amended.2
      (FuzzyRule.ofText "if temperature is cold then heater is on")
      ⟨some "heater", "on"⟩
      (fun g => if g = some "temperature" then some (.arr [32, 35, 41]) else none)
      exGroupset [.arr [4/5, 1/2, 0]] (Shape.arr 3) hc
      (by with_unfolding_all decide) (by decide) (by decide))⟩

-- ===========================================================================
-- Membership accumulation lemmas (C2, C3, C6, C9)
-- ===========================================================================

theorem npAdd_same {u v : NpVal} (h : u.shape = v.shape) :
    npAdd u v = some (zipSame (· + ·) u v) := by
  rw [npAdd]
  exact npZip_same _ h

theorem innerUpdate_spec (sh : Shape) :
    ∀ (inner : MembInner) (fn : String) (v : NpVal),
      (∀ q ∈ inner, (q.2 : NpVal).shape = sh) → v.shape = sh →
      ∃ inner', innerUpdate inner fn v = .ok inner' ∧
        inner' ≠ [] ∧
        (∀ q ∈ inner', (q.2 : NpVal).shape = sh) ∧
        (∀ q ∈ inner', q.1 = fn ∨ ∃ q2 ∈ inner, q2.1 = q.1) ∧
        (∀ fn', innerLookup inner' fn' =
          if fn' = fn then
            (match innerLookup inner fn with
              | none => some v
              | some old => some (zipSame (· + ·) old v))
          else innerLookup inner fn')
  | [], fn, v, _, hv => by
      refine ⟨[(fn, v)], rfl, by simp, by simpa using hv, by simp, ?_⟩
      intro fn'
      by_cases h : fn' = fn
      · subst h
        simp [innerLookup]
      · have hb : (fn == fn') = false := by simpa using Ne.symm h
        simp [innerLookup, List.find?, hb, h]
  | (n, old) :: rest, fn, v, hsh, hv => by
      by_cases h : n = fn
      · subst h
        have hold : old.shape = sh := hsh (n, old) (by simp)
        have hadd : npAdd old v = some (zipSame (· + ·) old v) :=
          npAdd_same (by rw [hold, hv])
        refine ⟨(n, zipSame (· + ·) old v) :: rest, ?_, by simp, ?_, ?_, ?_⟩
        · rw [innerUpdate, if_pos rfl, hadd]
        · intro q hq
          rcases List.mem_cons.mp hq with hq | hq
          · rw [hq]
            show (zipSame (· + ·) old v).shape = sh
            rw [zipSame_shape _ (by rw [hold, hv]), hold]
          · exact hsh q (by simp [hq])
        · intro q hq
          rcases List.mem_cons.mp hq with hq | hq
          · left; rw [hq]
          · right; exact ⟨q, by simp [hq], rfl⟩
        · intro fn'
          by_cases h' : fn' = n
          · subst h'
            simp [innerLookup]
          · simp [innerLookup, List.find?, h', Ne.symm h',
              show (n == fn') = false by simpa using Ne.symm h']
      · obtain ⟨rest', hupd, hne, hshr, hpairs, hlook⟩ :=
          innerUpdate_spec sh rest fn v (fun q hq => hsh q (by simp [hq])) hv
        refine ⟨(n, old) :: rest', ?_, by simp, ?_, ?_, ?_⟩
        · rw [innerUpdate, if_neg h, hupd]
          rfl
        · intro q hq
          rcases List.mem_cons.mp hq with hq | hq
          · rw [hq]
            exact hsh (n, old) (by simp)
          · exact hshr q hq
        · intro q hq
          rcases List.mem_cons.mp hq with hq | hq
          · right; exact ⟨(n, old), by simp, by rw [hq]⟩
          · rcases hpairs q hq with hp | ⟨q2, hq2, he⟩
            · left; exact hp
            · right; exact ⟨q2, by simp [hq2], he⟩
        · intro fn'
          by_cases h' : fn' = n
          · rw [if_neg (fun hc => h (h'.symm.trans hc))]
            simp [innerLookup, h']
          · have e1 : innerLookup ((n, old) :: rest') fn' = innerLookup rest' fn' := by
              simp [innerLookup, List.find?,
                show (n == fn') = false by simpa using Ne.symm h']
            have e2 : innerLookup ((n, old) :: rest) fn' = innerLookup rest fn' := by
              simp [innerLookup, List.find?,
                show (n == fn') = false by simpa using Ne.symm h']
            rw [e1, hlook fn', e2]
            by_cases h2 : fn' = fn
            · subst h2
              have e3 : innerLookup ((n, old) :: rest) fn' = innerLookup rest fn' := by
                simp [innerLookup, List.find?,
                  show (n == fn') = false by simpa using Ne.symm h']
              rw [if_pos rfl, if_pos rfl, e3]
            · rw [if_neg h2, if_neg h2]

theorem dictUpdate_spec (sh : Shape) :
    ∀ (d : MembDict) (g : GName) (fn : String) (v : NpVal),
      (∀ gi ∈ d, ∀ q ∈ gi.2, (q.2 : NpVal).shape = sh) →
      (∀ gi ∈ d, gi.2 ≠ []) →
      v.shape = sh →
      ∃ d', dictUpdate d g fn v = .ok d' ∧
        (∀ gi ∈ d', ∀ q ∈ gi.2, (q.2 : NpVal).shape = sh) ∧
        (∀ gi ∈ d', gi.2 ≠ []) ∧
        mdHasKey d' g ∧
        (∀ g', mdHasKey d g' → mdHasKey d' g') ∧
        (∀ gi ∈ d', ∀ q ∈ gi.2, (gi.1 = g ∧ q.1 = fn) ∨
          ∃ gj ∈ d, gj.1 = gi.1 ∧ ∃ q2 ∈ gj.2, q2.1 = q.1) ∧
        (∀ g' fn', mdLookup d' g' fn' =
          if g' = g ∧ fn' = fn then
            (match mdLookup d g fn with
              | none => some v
              | some old => some (zipSame (· + ·) old v))
          else mdLookup d g' fn')
  | [], g, fn, v, _, _, hv => by
      refine ⟨[(g, [(fn, v)])], rfl, by simpa using hv, by simp,
        ⟨(g, [(fn, v)]), by simp, rfl⟩, ?_, by simp, ?_⟩
      · intro g' hg'
        rcases hg' with ⟨gi, hgi, _⟩
        simp at hgi
      · intro g' fn'
        by_cases hg : g' = g
        · subst hg
          by_cases hf : fn' = fn
          · subst hf
            simp [mdLookup, innerLookup]
          · have hb : (fn == fn') = false := by simpa using Ne.symm hf
            simp [mdLookup, innerLookup, List.find?, hb, hf]
        · have hb : (g == g') = false := by simpa using Ne.symm hg
          simp [mdLookup, List.find?, hb, hg]
  | (gn, inner) :: rest, g, fn, v, hsh, hne, hv => by
      by_cases hg : gn = g
      · subst hg
        obtain ⟨inner', hupd, hine, hish, hipairs, hilook⟩ :=
          innerUpdate_spec sh inner fn v
            (fun q hq => hsh (gn, inner) (by simp) q hq) hv
        refine ⟨(gn, inner') :: rest, ?_, ?_, ?_, ⟨(gn, inner'), by simp, rfl⟩,
          ?_, ?_, ?_⟩
        · rw [dictUpdate, if_pos rfl, hupd]
          rfl
        · intro gi hgi q hq
          rcases List.mem_cons.mp hgi with hgi | hgi
          · rw [hgi] at hq
            exact hish q hq
          · exact hsh gi (by simp [hgi]) q hq
        · intro gi hgi
          rcases List.mem_cons.mp hgi with hgi | hgi
          · rw [hgi]
            exact hine
          · exact hne gi (by simp [hgi])
        · intro g' hg'
          rcases hg' with ⟨gi, hgi, he⟩
          rcases List.mem_cons.mp hgi with hgi | hgi
          · exact ⟨(gn, inner'), by simp, by rw [← he, hgi]⟩
          · exact ⟨gi, by simp [hgi], he⟩
        · intro gi hgi q hq
          rcases List.mem_cons.mp hgi with hgi | hgi
          · subst hgi
            rcases hipairs q hq with hp | ⟨q2, hq2, he⟩
            · left
              exact ⟨rfl, hp⟩
            · right
              exact ⟨(gn, inner), by simp, rfl, q2, hq2, he⟩
          · right
            exact ⟨gi, by simp [hgi], rfl, q, hq, rfl⟩
        · intro g' fn'
          by_cases hg' : g' = gn
          · subst hg'
            have hlook : mdLookup ((g', inner') :: rest) g' fn' = innerLookup inner' fn' := by
              simp [mdLookup, innerLookup, List.find?]
            have hlook2 : mdLookup ((g', inner) :: rest) g' fn' = innerLookup inner fn' := by
              simp [mdLookup, innerLookup, List.find?]
            have hlook3 : mdLookup ((g', inner) :: rest) g' fn = innerLookup inner fn := by
              simp [mdLookup, innerLookup, List.find?]
            rw [hlook, hilook fn', hlook2, hlook3]
            by_cases hf : fn' = fn
            · simp [hf]
            · simp [hf]
          · have hb : (gn == g') = false := by simpa using Ne.symm hg'
            have e1 : mdLookup ((gn, inner') :: rest) g' fn' = mdLookup rest g' fn' := by
              simp [mdLookup, List.find?, hb]
            have e2 : mdLookup ((gn, inner) :: rest) g' fn' = mdLookup rest g' fn' := by
              simp [mdLookup, List.find?, hb]
            rw [e1, e2, if_neg (fun hc => hg' (hc.1.trans rfl))]
      · obtain ⟨rest', hupd, hrsh, hrne, hrkey, hrmono, hrpairs, hrlook⟩ :=
          dictUpdate_spec sh rest g fn v
            (fun gi hgi q hq => hsh gi (by simp [hgi]) q hq)
            (fun gi hgi => hne gi (by simp [hgi])) hv
        refine ⟨(gn, inner) :: rest', ?_, ?_, ?_, ?_, ?_, ?_, ?_⟩
        · rw [dictUpdate, if_neg hg, hupd]
          rfl
        · intro gi hgi q hq
          rcases List.mem_cons.mp hgi with hgi | hgi
          · rw [hgi] at hq
            exact hsh (gn, inner) (by simp) q hq
          · exact hrsh gi hgi q hq
        · intro gi hgi
          rcases List.mem_cons.mp hgi with hgi | hgi
          · rw [hgi]
            exact hne (gn, inner) (by simp)
          · exact hrne gi hgi
        · rcases hrkey with ⟨gi, hgi, he⟩
          exact ⟨gi, by simp [hgi], he⟩
        · intro g' hg'
          rcases hg' with ⟨gi, hgi, he⟩
          rcases List.mem_cons.mp hgi with hgi | hgi
          · exact ⟨(gn, inner), by simp, by rw [← he, hgi]⟩
          · rcases hrmono g' ⟨gi, hgi, he⟩ with ⟨gj, hgj, hej⟩
            exact ⟨gj, by simp [hgj], hej⟩
        · intro gi hgi q hq
          rcases List.mem_cons.mp hgi with hgi | hgi
          · subst hgi
            right
            exact ⟨(gn, inner), by simp, rfl, q, hq, rfl⟩
          · rcases hrpairs gi hgi q hq with hp | ⟨gj, hgj, hej, q2, hq2, he2⟩
            · left
              exact hp
            · right
              exact ⟨gj, by simp [hgj], hej, q2, hq2, he2⟩
        · intro g' fn'
          by_cases hg' : g' = gn
          · have hb : (gn == g') = true := by simpa using hg'.symm
            have e1 : mdLookup ((gn, inner) :: rest') g' fn' = innerLookup inner fn' := by
              simp [mdLookup, innerLookup, List.find?, hb]
            have e2 : mdLookup ((gn, inner) :: rest) g' fn' = innerLookup inner fn' := by
              simp [mdLookup, innerLookup, List.find?, hb]
            have hcond : ¬ (g' = g ∧ fn' = fn) := fun hc => hg (hg'.symm.trans hc.1)
            rw [e1, if_neg hcond, e2]
          · have hb : (gn == g') = false := by simpa using Ne.symm hg'
            have e1 : mdLookup ((gn, inner) :: rest') g' fn' = mdLookup rest' g' fn' := by
              simp [mdLookup, List.find?, hb]
            have e2 : mdLookup ((gn, inner) :: rest) g' fn' = mdLookup rest g' fn' := by
              simp [mdLookup, List.find?, hb]
            have e3 : mdLookup ((gn, inner) :: rest) g fn = mdLookup rest g fn := by
              have hbg : (gn == g) = false := by simpa using hg
              simp [mdLookup, List.find?, hbg]
            rw [e1, hrlook g' fn', e2, e3]

theorem pairStrengths_cons (t : GName × String × NpVal)
    (ts : List (GName × String × NpVal)) (g : GName) (fn : String) :
    pairStrengths (t :: ts) g fn =
      if t.1 = g ∧ t.2.1 = fn then t.2.2 :: pairStrengths ts g fn
      else pairStrengths ts g fn := by
  by_cases h : t.1 = g ∧ t.2.1 = fn
  · have hb : (t.1 == g && t.2.1 == fn) = true := by
      simp [h.1, h.2]
    simp [pairStrengths, List.filter, hb, h]
  · have hb : (t.1 == g && t.2.1 == fn) = false := by
      rcases not_and_or.mp h with h1 | h1 <;> simp [h1]
    simp [pairStrengths, List.filter, hb, h]

theorem addAll_step (o : Option NpVal) (v : NpVal) (vs : List NpVal) :
    addAll o (v :: vs) =
      addAll (match o with
        | none => some v
        | some u => some (zipSame (· + ·) u v)) vs := by
  cases o <;> rfl

theorem accumRules_spec (gs : FuzzyGroupset) (x : Inputs) (sh : Shape) :
    ∀ (rules : List FuzzyRule) (ts : List (GName × String × NpVal)) (d : MembDict),
      ruleOutputs gs x rules = .ok ts →
      (∀ t ∈ ts, (t.2.2 : NpVal).shape = sh) →
      (∀ gi ∈ d, ∀ q ∈ gi.2, (q.2 : NpVal).shape = sh) →
      (∀ gi ∈ d, gi.2 ≠ []) →
      ∃ d', accumRules gs x rules d = .ok d' ∧
        (∀ gi ∈ d', ∀ q ∈ gi.2, (q.2 : NpVal).shape = sh) ∧
        (∀ gi ∈ d', gi.2 ≠ []) ∧
        (∀ g', mdHasKey d g' → mdHasKey d' g') ∧
        (∀ t ∈ ts, mdHasKey d' t.1) ∧
        (∀ gi ∈ d', ∀ q ∈ gi.2, (∃ t ∈ ts, t.1 = gi.1 ∧ t.2.1 = q.1) ∨
          ∃ gj ∈ d, gj.1 = gi.1 ∧ ∃ q2 ∈ gj.2, q2.1 = q.1) ∧
        (∀ g fn, mdLookup d' g fn = addAll (mdLookup d g fn) (pairStrengths ts g fn))
  | [], ts, d, hro, hts, hdsh, hdne => by
      simp only [ruleOutputs] at hro
      cases hro
      exact ⟨d, rfl, hdsh, hdne, fun _ h => h, by simp, fun gi hgi q hq =>
        Or.inr ⟨gi, hgi, rfl, q, hq, rfl⟩, fun g fn => rfl⟩
  | r :: rest, ts, d, hro, hts, hdsh, hdne => by
      simp only [ruleOutputs] at hro
      cases hev : r.evaluate x gs with
      | error e => rw [hev] at hro; simp [Bind.bind, Except.bind] at hro
      | ok t0 =>
      rw [hev] at hro
      cases hrest : ruleOutputs gs x rest with
      | error e => rw [hrest] at hro; simp [Bind.bind, Except.bind] at hro
      | ok ts' =>
      rw [hrest] at hro
      simp only [Bind.bind, Except.bind] at hro
      cases hro
      obtain ⟨d1, hupd, h1sh, h1ne, h1key, h1mono, h1pairs, h1look⟩ :=
        dictUpdate_spec sh d t0.1 t0.2.1 t0.2.2 hdsh hdne
          (hts t0 (by simp))
      obtain ⟨d', hacc, h2sh, h2ne, h2mono, h2keys, h2pairs, h2look⟩ :=
        accumRules_spec gs x sh rest ts' d1 hrest
          (fun t ht => hts t (by simp [ht])) h1sh h1ne
      refine ⟨d', ?_, h2sh, h2ne, ?_, ?_, ?_, ?_⟩
      · rw [accumRules, hev]
        simp only [Bind.bind, Except.bind, hupd]
        exact hacc
      · intro g' hg'
        exact h2mono g' (h1mono g' hg')
      · intro t ht
        rcases List.mem_cons.mp ht with ht | ht
        · rw [ht]
          exact h2mono t0.1 h1key
        · exact h2keys t ht
      · intro gi hgi q hq
        rcases h2pairs gi hgi q hq with ⟨t, ht, he⟩ | ⟨gj, hgj, hej, q2, hq2, he2⟩
        · exact Or.inl ⟨t, by simp [ht], he⟩
        · rcases h1pairs gj hgj q2 hq2 with ⟨he3, he4⟩ | ⟨gk, hgk, hek, q3, hq3, he5⟩
          · left
            exact ⟨t0, by simp, he3.symm.trans hej, he4.symm.trans he2⟩
          · right
            exact ⟨gk, hgk, hek.trans hej, q3, hq3, he5.trans he2⟩
      · intro g fn
        rw [h2look g fn, h1look g fn, pairStrengths_cons]
        by_cases hc : t0.1 = g ∧ t0.2.1 = fn
        · rw [if_pos hc, if_pos ⟨hc.1.symm, hc.2.symm⟩, addAll_step, hc.1, hc.2]
        · rw [if_neg hc, if_neg (fun h => hc ⟨h.1.symm, h.2.symm⟩)]

theorem foldl_zipSameAdd_spec (sh : Shape) :
    ∀ (vs : List NpVal) (acc : NpVal), acc.shape = sh →
      (∀ v ∈ vs, v.shape = sh) →
      (vs.foldl (zipSame (· + ·)) acc).shape = sh ∧
      ∀ i, i < sh.card →
        (vs.foldl (zipSame (· + ·)) acc).get i
          = acc.get i + (vs.map (fun v => v.get i)).sum
  | [], acc, ha, _ => ⟨ha, fun i _ => by simp⟩
  | v :: vs, acc, ha, hv => by
      have hvs : v.shape = sh := hv v (by simp)
      have hshape : acc.shape = v.shape := by rw [ha, hvs]
      have hzs : (zipSame (· + ·) acc v).shape = sh := by
        rw [zipSame_shape _ hshape, ha]
      obtain ⟨h1, h2⟩ := foldl_zipSameAdd_spec sh vs (zipSame (· + ·) acc v) hzs
        (fun w hw => hv w (by simp [hw]))
      refine ⟨by simpa using h1, ?_⟩
      intro i hi
      have hacc : i < acc.size := by rw [NpVal.size_eq_card, ha]; exact hi
      simp only [List.foldl_cons]
      rw [h2 i hi, zipSame_get _ hshape i hacc]
      simp [add_assoc]

theorem npSumD_spec (sh : Shape) (vs : List NpVal) (hne : vs ≠ [])
    (hv : ∀ v ∈ vs, v.shape = sh) :
    (npSumD vs).shape = sh ∧
    ∀ i, i < sh.card → (npSumD vs).get i = (vs.map (fun v => v.get i)).sum := by
  cases vs with
  | nil => exact absurd rfl hne
  | cons v vs =>
      obtain ⟨h1, h2⟩ := foldl_zipSameAdd_spec sh vs v (hv v (by simp))
        (fun w hw => hv w (by simp [hw]))
      refine ⟨h1, fun i hi => ?_⟩
      rw [npSumD, h2 i hi]
      simp

theorem npStackSum_eq (sh : Shape) (vs : List NpVal) (hne : vs ≠ [])
    (hv : ∀ v ∈ vs, v.shape = sh) :
    npStackSum vs = .ok (npSumD vs) := by
  cases vs with
  | nil => exact absurd rfl hne
  | cons v vs =>
      rw [npStackSum, if_pos]
      · rfl
      · rw [List.all_eq_true]
        intro w hw
        have h1 : w.shape = sh := hv w (by simp [hw])
        have h2 : v.shape = sh := hv v (by simp)
        simp [h1, h2]

theorem divAll_spec (sh : Shape) (s : NpVal) (hs : s.shape = sh) :
    ∀ (inner : MembInner), (∀ p ∈ inner, (p.2 : NpVal).shape = sh) →
      divAll s inner = .ok (inner.map (fun p => (p.1, zipSame (· / ·) p.2 s)))
  | [], _ => rfl
  | p :: rest, hp => by
      have hdiv : npDiv p.2 s = some (zipSame (· / ·) p.2 s) := by
        rw [npDiv]
        exact npZip_same _ (by rw [hp p (by simp), hs])
      rw [divAll, hdiv,
        divAll_spec sh s hs rest (fun q hq => hp q (by simp [hq]))]
      rfl

theorem normalizeGroup_eq (sh : Shape) (inner : MembInner) (hne : inner ≠ [])
    (hsh : ∀ p ∈ inner, (p.2 : NpVal).shape = sh) :
    normalizeGroup inner =
      .ok (inner.map (fun p =>
        (p.1, zipSame (· / ·) p.2 (npSumD (inner.map (·.2)))))) := by
  have hmne : inner.map (·.2) ≠ [] := by simpa using hne
  have hmsh : ∀ v ∈ inner.map (·.2), NpVal.shape v = sh := by
    intro v hv
    obtain ⟨p, hp, he⟩ := List.mem_map.mp hv
    rw [← he]
    exact hsh p hp
  rw [normalizeGroup, npStackSum_eq sh _ hmne hmsh]
  simp only [Bind.bind, Except.bind]
  exact divAll_spec sh _ ((npSumD_spec sh _ hmne hmsh).1) inner hsh

theorem normalizeAll_eq (sh : Shape) :
    ∀ (d : MembDict),
      (∀ gi ∈ d, gi.2 ≠ []) →
      (∀ gi ∈ d, ∀ q ∈ gi.2, (q.2 : NpVal).shape = sh) →
      normalizeAll d = .ok (d.map (fun gi =>
        (gi.1, gi.2.map (fun p =>
          (p.1, zipSame (· / ·) p.2 (npSumD (gi.2.map (·.2))))))))
  | [], _, _ => rfl
  | gi :: rest, hne, hsh => by
      rw [normalizeAll,
        normalizeGroup_eq sh gi.2 (hne gi (by simp)) (fun q hq => hsh gi (by simp) q hq),
        normalizeAll_eq sh rest (fun gj hgj => hne gj (by simp [hgj]))
          (fun gj hgj q hq => hsh gj (by simp [hgj]) q hq)]
      rfl

theorem npAdd_any_get {t v : NpVal} (sh : Shape)
    (ht : t.shape = sh ∨ t.shape = Shape.scalar) (hv : v.shape = sh) :
    ∃ t', npAdd t v = some t' ∧ t'.shape = sh ∧
      ∀ i, i < sh.card → t'.get i = t.get i + v.get i := by
  by_cases hts : t.shape = sh
  · have he : t.shape = v.shape := by rw [hts, hv]
    refine ⟨zipSame (· + ·) t v, npAdd_same he, by rw [zipSame_shape _ he, hts], ?_⟩
    intro i hi
    exact zipSame_get _ he i (by rw [NpVal.size_eq_card, hts]; exact hi)
  · have hsc : t.shape = Shape.scalar := ht.resolve_left hts
    cases t with
    | scalar a =>
        refine ⟨v.map (fun b => a + b), ?_, by rw [NpVal.map_shape, hv], ?_⟩
        · rw [npAdd]
          exact npZip_scalar_left _ a v
        · intro i hi
          rw [NpVal.map_get _ v i (by rw [NpVal.size_eq_card, hv]; exact hi)]
          rfl
    | arr xs => simp [NpVal.shape] at hsc

theorem tskSums_spec (gs : FuzzyGroupset) (g : GName) (sh : Shape) :
    ∀ (inner : MembInner) (t b : NpVal),
      (∀ p ∈ inner, (p.2 : NpVal).shape = sh) →
      (∀ p ∈ inner, (lookupFn gs g p.1).isSome) →
      (t.shape = sh ∨ t.shape = Shape.scalar) →
      (b.shape = sh ∨ b.shape = Shape.scalar) →
      ∃ t' b', tskSums gs g inner (t, b) = .ok (t', b') ∧
        (inner = [] → t' = t ∧ b' = b) ∧
        (inner ≠ [] → t'.shape = sh ∧ b'.shape = sh) ∧
        (∀ i, i < sh.card →
          t'.get i = t.get i
            + (inner.map (fun p => p.2.get i * centerD gs g p.1)).sum ∧
          b'.get i = b.get i + (inner.map (fun p => p.2.get i)).sum)
  | [], t, b, _, _, _, _ =>
      ⟨t, b, rfl, fun _ => ⟨rfl, rfl⟩, fun h => absurd rfl h,
        fun i _ => by simp⟩
  | p :: rest, t, b, hsh, hlk, ht, hb => by
      have hlkp := hlk p (by simp)
      obtain ⟨f, hf⟩ := Option.isSome_iff_exists.mp hlkp
      have hpsh : p.2.shape = sh := hsh p (by simp)
      have hscaled : (p.2.map (fun m => m * f.center)).shape = sh := by
        rw [NpVal.map_shape, hpsh]
      obtain ⟨t1, hadd1, ht1sh, ht1get⟩ := npAdd_any_get sh ht hscaled
      obtain ⟨b1, hadd2, hb1sh, hb1get⟩ := npAdd_any_get sh hb hpsh
      obtain ⟨t', b', hrec, hnil, hne, hget⟩ :=
        tskSums_spec gs g sh rest t1 b1 (fun q hq => hsh q (by simp [hq]))
          (fun q hq => hlk q (by simp [hq])) (Or.inl ht1sh) (Or.inl hb1sh)
      refine ⟨t', b', ?_, fun h => by simp at h, ?_, ?_⟩
      · simp only [tskSums, hf, hadd1, hadd2]
        exact hrec
      · intro _
        rcases List.eq_nil_or_concat rest with hr | _
        · subst hr
          obtain ⟨he1, he2⟩ := hnil rfl
          rw [he1, he2]
          exact ⟨ht1sh, hb1sh⟩
        · rcases List.eq_nil_or_concat rest with hr2 | ⟨l2, a2, hr2⟩
          · subst hr2
            obtain ⟨he1, he2⟩ := hnil rfl
            rw [he1, he2]
            exact ⟨ht1sh, hb1sh⟩
          · have : rest ≠ [] := by
              rw [hr2]
              simp
            exact hne this
      · intro i hi
        have hpi : i < p.2.size := by
          rw [NpVal.size_eq_card, hpsh]
          exact hi
        obtain ⟨hg1, hg2⟩ := hget i hi
        constructor
        · rw [hg1, ht1get i hi, NpVal.map_get _ p.2 i hpi]
          simp only [List.map_cons, List.sum_cons, centerD, hf]
          ring
        · rw [hg2, hb1get i hi]
          simp only [List.map_cons, List.sum_cons]
          ring

theorem tskGroup_spec (gs : FuzzyGroupset) (g : GName) (sh : Shape)
    (inner : MembInner) (hne : inner ≠ [])
    (hsh : ∀ p ∈ inner, (p.2 : NpVal).shape = sh)
    (hlk : ∀ p ∈ inner, (lookupFn gs g p.1).isSome) :
    ∃ w, tskGroup gs g inner = .ok w ∧ w.shape = sh ∧
      ∀ i, i < sh.card →
        w.get i = (inner.map (fun p => p.2.get i * centerD gs g p.1)).sum
                    / (inner.map (fun p => p.2.get i)).sum := by
  obtain ⟨t', b', hrec, _, hnesh, hget⟩ :=
    tskSums_spec gs g sh inner (NpVal.scalar 0) (NpVal.scalar 0) hsh hlk
      (Or.inr rfl) (Or.inr rfl)
  obtain ⟨htsh, hbsh⟩ := hnesh hne
  have hdiv : npDiv t' b' = some (zipSame (· / ·) t' b') := by
    rw [npDiv]
    exact npZip_same _ (by rw [htsh, hbsh])
  refine ⟨zipSame (· / ·) t' b', ?_, by rw [zipSame_shape _ (by rw [htsh, hbsh]), htsh], ?_⟩
  · rw [tskGroup]
    simp only [hrec, Bind.bind, Except.bind, hdiv]
  · intro i hi
    rw [zipSame_get _ (by rw [htsh, hbsh]) i (by rw [NpVal.size_eq_card, htsh]; exact hi)]
    obtain ⟨hg1, hg2⟩ := hget i hi
    rw [hg1, hg2]
    simp [NpVal.get]

theorem tskAll_spec (gs : FuzzyGroupset) (sh : Shape) :
    ∀ (d : MembDict),
      (∀ gi ∈ d, gi.2 ≠ []) →
      (∀ gi ∈ d, ∀ q ∈ gi.2, (q.2 : NpVal).shape = sh) →
      (∀ gi ∈ d, ∀ q ∈ gi.2, (lookupFn gs gi.1 q.1).isSome) →
      ∃ res, tskAll gs d = .ok res ∧
        List.Forall₂ (fun (gi : GName × MembInner) (ri : GName × NpVal) =>
          ri.1 = gi.1 ∧ ri.2.shape = sh ∧
          ∀ i, i < sh.card →
            ri.2.get i = (gi.2.map (fun p => p.2.get i * centerD gs gi.1 p.1)).sum
                          / (gi.2.map (fun p => p.2.get i)).sum) d res
  | [], _, _, _ => ⟨[], rfl, List.Forall₂.nil⟩
  | gi :: rest, hne, hsh, hlk => by
      obtain ⟨w, hw, hwsh, hwget⟩ := tskGroup_spec gs gi.1 sh gi.2
        (hne gi (by simp)) (fun q hq => hsh gi (by simp) q hq)
        (fun q hq => hlk gi (by simp) q hq)
      obtain ⟨res, hres, hf2⟩ := tskAll_spec gs sh rest
        (fun gj hgj => hne gj (by simp [hgj]))
        (fun gj hgj q hq => hsh gj (by simp [hgj]) q hq)
        (fun gj hgj q hq => hlk gj (by simp [hgj]) q hq)
      refine ⟨(gi.1, w) :: res, ?_, List.Forall₂.cons ⟨rfl, hwsh, hwget⟩ hf2⟩
      rw [tskAll]
      simp only [hw, hres, Bind.bind, Except.bind]

theorem normalized_tsk_value (gs : FuzzyGroupset) (g : GName) (sh : Shape)
    (inner : MembInner) (hne : inner ≠ [])
    (hsh : ∀ p ∈ inner, (p.2 : NpVal).shape = sh)
    (i : Nat) (hi : i < sh.card)
    (hnz : (inner.map (fun p => p.2.get i)).sum ≠ 0) :
    ((inner.map (fun p => (p.1, zipSame (· / ·) p.2 (npSumD (inner.map (·.2)))))).map
        (fun q => q.2.get i * centerD gs g q.1)).sum
      / ((inner.map (fun p => (p.1, zipSame (· / ·) p.2 (npSumD (inner.map (·.2)))))).map
        (fun q => q.2.get i)).sum
    = (inner.map (fun p => p.2.get i * centerD gs g p.1)).sum
      / (inner.map (fun p => p.2.get i)).sum := by
  have hmne : inner.map (·.2) ≠ [] := by simpa using hne
  have hmsh : ∀ v ∈ inner.map (·.2), NpVal.shape v = sh := by
    intro v hv
    obtain ⟨p, hp, he⟩ := List.mem_map.mp hv
    rw [← he]
    exact hsh p hp
  have hSsh : (npSumD (inner.map (·.2))).shape = sh :=
    (npSumD_spec sh _ hmne hmsh).1
  have hSget : (npSumD (inner.map (·.2))).get i
      = (inner.map (fun p => p.2.get i)).sum := by
    rw [(npSumD_spec sh _ hmne hmsh).2 i hi, List.map_map]
    rfl
  have hnum : (inner.map (fun p =>
        (p.1, zipSame (· / ·) p.2 (npSumD (inner.map (·.2)))))).map
          (fun q => q.2.get i * centerD gs g q.1)
      = inner.map (fun p => (p.2.get i * centerD gs g p.1)
          * ((inner.map (fun p => p.2.get i)).sum)⁻¹) := by
    rw [List.map_map]
    apply List.map_congr_left
    intro p hp
    simp only [Function.comp]
    rw [zipSame_get _ (by rw [hsh p hp, hSsh]) i
        (by rw [NpVal.size_eq_card, hsh p hp]; exact hi), hSget,
      div_eq_mul_inv]
    ring
  have hden : (inner.map (fun p =>
        (p.1, zipSame (· / ·) p.2 (npSumD (inner.map (·.2)))))).map
          (fun q => q.2.get i)
      = inner.map (fun p => p.2.get i
          * ((inner.map (fun p => p.2.get i)).sum)⁻¹) := by
    rw [List.map_map]
    apply List.map_congr_left
    intro p hp
    simp only [Function.comp]
    rw [zipSame_get _ (by rw [hsh p hp, hSsh]) i
        (by rw [NpVal.size_eq_card, hsh p hp]; exact hi), hSget,
      div_eq_mul_inv]
  rw [hnum, hden, List.sum_map_mul_right, List.sum_map_mul_right,
    mul_inv_cancel₀ hnz, div_one, div_eq_mul_inv]

/-- C2: when every output group's accumulated firing strengths have a
nonzero elementwise total, `eval_tsk` returns, per output group, the
quotient `sum(firing_strength_f * center_f) / sum(firing_strength_f)` over
the group's returned functions, where the firing strengths are those
accumulated during `eval_membership` and `center` is the function's
representative value.  (The normalization division inside `eval_membership`
cancels in the quotient.) -/
theorem c2_eval_tsk_weighted_average (fis : FIS) (x : Inputs) (md : MembDict)
    (sh : Shape)
    (hraw : fis.eval_membership_raw x = .ok md)
    (hne : ∀ gi ∈ md, gi.2 ≠ [])
    (hsh : ∀ gi ∈ md, ∀ q ∈ gi.2, (q.2 : NpVal).shape = sh)
    (hlk : ∀ gi ∈ md, ∀ q ∈ gi.2, (lookupFn fis.groupset gi.1 q.1).isSome)
    (hnz : ∀ gi ∈ md, ∀ i, i < sh.card →
      (gi.2.map (fun p => p.2.get i)).sum ≠ 0) :
    ∃ res, fis.eval_tsk x = .ok res ∧
      List.Forall₂ (fun (gi : GName × MembInner) (ri : GName × NpVal) =>
        ri.1 = gi.1 ∧ ri.2.shape = sh ∧
        ∀ i, i < sh.card →
          ri.2.get i = (gi.2.map (fun p =>
              p.2.get i * centerD fis.groupset gi.1 p.1)).sum
            / (gi.2.map (fun p => p.2.get i)).sum) md res := by
  have hmd' := normalizeAll_eq sh md hne hsh
  have h1 : ∀ gi' ∈ md.map (fun gi =>
      (gi.1, gi.2.map (fun p =>
        (p.1, zipSame (· / ·) p.2 (npSumD (gi.2.map (·.2))))))), gi'.2 ≠ [] := by
    intro gi' hgi'
    obtain ⟨gi, hgi, he⟩ := List.mem_map.mp hgi'
    rw [← he]
    simpa using hne gi hgi
  have h2 : ∀ gi' ∈ md.map (fun gi =>
      (gi.1, gi.2.map (fun p =>
        (p.1, zipSame (· / ·) p.2 (npSumD (gi.2.map (·.2))))))),
      ∀ q ∈ gi'.2, (q.2 : NpVal).shape = sh := by
    intro gi' hgi' q hq
    obtain ⟨gi, hgi, he⟩ := List.mem_map.mp hgi'
    rw [← he] at hq
    obtain ⟨p, hp, hep⟩ := List.mem_map.mp hq
    rw [← hep]
    have hmne : gi.2.map (·.2) ≠ [] := by simpa using hne gi hgi
    have hmsh : ∀ v ∈ gi.2.map (·.2), NpVal.shape v = sh := by
      intro v hv
      obtain ⟨p2, hp2, he2⟩ := List.mem_map.mp hv
      rw [← he2]
      exact hsh gi hgi p2 hp2
    show (zipSame (· / ·) p.2 (npSumD (gi.2.map (·.2)))).shape = sh
    rw [zipSame_shape _ (by rw [hsh gi hgi p hp, (npSumD_spec sh _ hmne hmsh).1])]
    exact hsh gi hgi p hp
  have h3 : ∀ gi' ∈ md.map (fun gi =>
      (gi.1, gi.2.map (fun p =>
        (p.1, zipSame (· / ·) p.2 (npSumD (gi.2.map (·.2))))))),
      ∀ q ∈ gi'.2, (lookupFn fis.groupset gi'.1 q.1).isSome := by
    intro gi' hgi' q hq
    obtain ⟨gi, hgi, he⟩ := List.mem_map.mp hgi'
    rw [← he] at hq ⊢
    obtain ⟨p, hp, hep⟩ := List.mem_map.mp hq
    rw [← hep]
    exact hlk gi hgi p hp
  obtain ⟨res, hres, hf2⟩ := tskAll_spec fis.groupset sh _ h1 h2 h3
  refine ⟨res, ?_, ?_⟩
  · rw [FIS.eval_tsk, FIS.eval_membership]
    simp only [hraw, Bind.bind, Except.bind, hmd', FIS.convert_to_tsk, hres]
  · rw [List.forall₂_map_left_iff] at hf2
    rw [List.forall₂_iff_get] at hf2 ⊢
    obtain ⟨hlen, hrel⟩ := hf2
    refine ⟨hlen, fun j h1j h2j => ?_⟩
    obtain ⟨he1, he2, he3⟩ := hrel j h1j h2j
    have hmem : md.get ⟨j, h1j⟩ ∈ md := List.get_mem md j h1j
    refine ⟨he1, he2, fun i hi => ?_⟩
    rw [he3 i hi]
    exact normalized_tsk_value fis.groupset (md.get ⟨j, h1j⟩).1 sh
      (md.get ⟨j, h1j⟩).2 (hne _ hmem) (hsh _ hmem) i hi (hnz _ hmem i hi)

/-- Witness for c2_eval_tsk_weighted_average: the temperature/heater example
at temperature = 35 (accumulated strengths 1/2, 1/2, 0 for the heater
group, whose sum 1 is nonzero). -/
theorem c2_eval_tsk_weighted_average_witness :
    (exFIS.eval_membership_raw exInput = .ok exMd) ∧
    ((exMd.map (fun gi => gi.2.map (fun p => p.2.get 0))).map List.sum = [1]) ∧
    ∃ res, exFIS.eval_tsk exInput = .ok res ∧
      List.Forall₂ (fun (gi : GName × MembInner) (ri : GName × NpVal) =>
        ri.1 = gi.1 ∧ ri.2.shape = Shape.scalar ∧
        ∀ i, i < Shape.scalar.card →
          ri.2.get i = (gi.2.map (fun p =>
              p.2.get i * centerD exFIS.groupset gi.1 p.1)).sum
            / (gi.2.map (fun p => p.2.get i)).sum) exMd res :=
  ⟨by with_unfolding_all decide, by with_unfolding_all decide,
    c2_eval_tsk_weighted_average exFIS exInput exMd Shape.scalar
      (by with_unfolding_all decide) (by with_unfolding_all decide)
      (by with_unfolding_all decide) (by with_unfolding_all decide)
      (by with_unfolding_all decide)⟩

theorem normalized_sum_one (sh : Shape) (inner : MembInner) (hne : inner ≠ [])
    (hsh : ∀ p ∈ inner, (p.2 : NpVal).shape = sh)
    (i : Nat) (hi : i < sh.card)
    (hnz : (inner.map (fun p => p.2.get i)).sum ≠ 0) :
    ((inner.map (fun p => (p.1, zipSame (· / ·) p.2 (npSumD (inner.map (·.2)))))).map
        (fun q => q.2.get i)).sum = 1 := by
  have hmne : inner.map (·.2) ≠ [] := by simpa using hne
  have hmsh : ∀ v ∈ inner.map (·.2), NpVal.shape v = sh := by
    intro v hv
    obtain ⟨p, hp, he⟩ := List.mem_map.mp hv
    rw [← he]
    exact hsh p hp
  have hSsh : (npSumD (inner.map (·.2))).shape = sh :=
    (npSumD_spec sh _ hmne hmsh).1
  have hSget : (npSumD (inner.map (·.2))).get i
      = (inner.map (fun p => p.2.get i)).sum := by
    rw [(npSumD_spec sh _ hmne hmsh).2 i hi, List.map_map]
    rfl
  have hden : (inner.map (fun p =>
        (p.1, zipSame (· / ·) p.2 (npSumD (inner.map (·.2)))))).map
          (fun q => q.2.get i)
      = inner.map (fun p => p.2.get i
          * ((inner.map (fun p => p.2.get i)).sum)⁻¹) := by
    rw [List.map_map]
    apply List.map_congr_left
    intro p hp
    simp only [Function.comp]
    rw [zipSame_get _ (by rw [hsh p hp, hSsh]) i
        (by rw [NpVal.size_eq_card, hsh p hp]; exact hi), hSget,
      div_eq_mul_inv]
  rw [hden, List.sum_map_mul_right, mul_inv_cancel₀ hnz]

/-- C3: `eval_membership` combines rules that share one consequent function
by adding their firing strengths, then divides every function's total by
the per-group sum, after which each output group's returned memberships sum
to 1 elementwise. -/
theorem c3_eval_membership_sum_normalize (fis : FIS) (x : Inputs)
    (ts : List (GName × String × NpVal)) (md : MembDict) (sh : Shape)
    (htr : ruleOutputs fis.groupset x fis.ruleset.rules = .ok ts)
    (hsh : ∀ t ∈ ts, (t.2.2 : NpVal).shape = sh)
    (hraw : fis.eval_membership_raw x = .ok md)
    (hnz : ∀ gi ∈ md, ∀ i, i < sh.card →
      (gi.2.map (fun p => p.2.get i)).sum ≠ 0) :
    (∀ g fn, mdLookup md g fn = addAll none (pairStrengths ts g fn)) ∧
    ∃ md', fis.eval_membership x = .ok md' ∧
      md' = md.map (fun gi => (gi.1, gi.2.map (fun p =>
        (p.1, zipSame (· / ·) p.2 (npSumD (gi.2.map (·.2))))))) ∧
      ∀ gi' ∈ md', ∀ i, i < sh.card →
        (gi'.2.map (fun q => q.2.get i)).sum = 1 := by
  obtain ⟨d', hacc, hdsh, hdne, _, _, _, hdlook⟩ :=
    accumRules_spec fis.groupset x sh fis.ruleset.rules ts [] htr hsh
      (by simp) (by simp)
  have hmd : d' = md := by
    rw [FIS.eval_membership_raw, hacc] at hraw
    exact (Except.ok.injEq _ _).mp hraw
  subst hmd
  refine ⟨fun g fn => hdlook g fn, ?_⟩
  have hmd' := normalizeAll_eq sh d' hdne hdsh
  refine ⟨_, ?_, rfl, ?_⟩
  · rw [FIS.eval_membership]
    simp only [hraw, Bind.bind, Except.bind, hmd']
  · intro gi' hgi' i hi
    obtain ⟨gi, hgi, he⟩ := List.mem_map.mp hgi'
    rw [← he]
    exact normalized_sum_one sh gi.2 (hdne gi hgi)
      (fun q hq => hdsh gi hgi q hq) i hi (hnz gi hgi i hi)

/-- Witness for c3_eval_membership_sum_normalize: the temperature/heater
example at 35 degrees; the three rule outputs route to three distinct heater
functions, and after normalization the heater memberships sum to 1. -/
theorem c3_eval_membership_sum_normalize_witness :
    (ruleOutputs exFIS.groupset exInput exFIS.ruleset.rules
      = .ok [(some "heater", "on", .scalar (1/2)),
             (some "heater", "medium", .scalar (1/2)),
             (some "heater", "off", .scalar 0)]) ∧
    (exFIS.eval_membership_raw exInput = .ok exMd) ∧
    ((∀ g fn, mdLookup exMd g fn = addAll none
        (pairStrengths [(some "heater", "on", .scalar (1/2)),
             (some "heater", "medium", .scalar (1/2)),
             (some "heater", "off", .scalar 0)] g fn)) ∧
      ∃ md', exFIS.eval_membership exInput = .ok md' ∧
        md' = exMd.map (fun gi => (gi.1, gi.2.map (fun p =>
          (p.1, zipSame (· / ·) p.2 (npSumD (gi.2.map (·.2))))))) ∧
        ∀ gi' ∈ md', ∀ i, i < Shape.scalar.card →
          (gi'.2.map (fun q => q.2.get i)).sum = 1) :=
  ⟨by with_unfolding_all decide, by with_unfolding_all decide,
    c3_eval_membership_sum_normalize exFIS exInput
      [(some "heater", "on", .scalar (1/2)),
       (some "heater", "medium", .scalar (1/2)),
       (some "heater", "off", .scalar 0)] exMd Shape.scalar
      (by with_unfolding_all decide) (by with_unfolding_all decide)
      (by with_unfolding_all decide) (by with_unfolding_all decide)⟩

-- ===========================================================================
-- C6: zero TSK denominator does not raise
-- ===========================================================================

/-- C6: evaluation of the code at the failing input.  With only the rule
"if temperature is cold then heater is on" and temperature = 100, the
heater group's accumulated firing strength is exactly 0 — the TSK
denominator of the claim is zero — yet `eval_tsk` completes without any
error: the normalization sum and the final `top / bot` are numpy float
divisions, which return non-finite values with a runtime warning instead of
raising, so the `except ZeroDivisionError` branch of `convert_to_tsk`
(which only Python-scalar operands could trigger) is unreachable from
`eval_tsk` and the claimed error never surfaces. -/
theorem c6_eval_tsk_zero_denominator_no_error :
    (exColdOnlyFIS.eval_membership_raw exInput100
      = .ok [(some "heater", [("on", NpVal.scalar 0)])]) ∧
    (exColdOnlyFIS.eval_tsk exInput100).isOk = true := by
  constructor
  · with_unfolding_all decide
  · with_unfolding_all decide

-- ===========================================================================
-- C9: key propagation through the eval_tsk pipeline
-- ===========================================================================

theorem isTsk_false {i : FnImpl} (h : i.isTsk = false) : i ≠ FnImpl.tsk := by
  cases i with
  | linear ps ys => intro he; cases he
  | special f ps => intro he; cases he
  | tsk => simp [FnImpl.isTsk] at h

theorem forall2_mem_right {α β : Type} {R : α → β → Prop} {l1 : List α}
    {l2 : List β} (h : List.Forall₂ R l1 l2) : ∀ b ∈ l2, ∃ a ∈ l1, R a b := by
  induction h with
  | nil => simp
  | cons hr _ ih =>
      intro b hb
      rcases List.mem_cons.mp hb with h2 | h2
      · exact ⟨_, by simp, h2 ▸ hr⟩
      · obtain ⟨a, ha, hra⟩ := ih b h2
        exact ⟨a, by simp [ha], hra⟩

theorem evaluate_fst (r : FuzzyRule) (x : Inputs) (gs : FuzzyGroupset)
    (t : GName × String × NpVal) (h : r.evaluate x gs = .ok t) :
    ∃ c, r.consequent = some c ∧ t.1 = c.group_name ∧ t.2.1 = c.fn_name := by
  rw [FuzzyRule.evaluate] at h
  cases hl : evalLoop gs x r.antecedents none with
  | error e => rw [hl] at h; simp [Bind.bind, Except.bind] at h
  | ok acc =>
      rw [hl] at h
      simp only [Bind.bind, Except.bind] at h
      cases acc with
      | none => simp at h
      | some prev =>
          cases hc : r.consequent with
          | none => simp only [hc] at h; simp at h
          | some c =>
              simp only [hc] at h
              cases h
              exact ⟨c, rfl, rfl, rfl⟩

theorem dictUpdate_keys : ∀ (d : MembDict) (g : GName) (fn : String)
    (v : NpVal) (d' : MembDict), dictUpdate d g fn v = .ok d' →
    mdHasKey d' g ∧ (∀ g', mdHasKey d g' → mdHasKey d' g')
  | [], g, fn, v, d', h => by
      simp only [dictUpdate] at h
      cases h
      refine ⟨⟨(g, [(fn, v)]), by simp, rfl⟩, ?_⟩
      intro g' hg'
      obtain ⟨gi, hgi, _⟩ := hg'
      simp at hgi
  | (gn, inner) :: rest, g, fn, v, d', h => by
      rw [dictUpdate] at h
      by_cases he : gn = g
      · rw [if_pos he] at h
        simp only [Bind.bind, Except.bind] at h
        cases hiu : innerUpdate inner fn v with
        | error e => rw [hiu] at h; simp at h
        | ok inner' =>
            rw [hiu] at h
            cases h
            refine ⟨⟨(gn, inner'), by simp, he⟩, ?_⟩
            intro g' hg'
            obtain ⟨gi, hgi, hgie⟩ := hg'
            rcases List.mem_cons.mp hgi with h2 | h2
            · exact ⟨(gn, inner'), by simp, by rw [← hgie, h2]⟩
            · exact ⟨gi, by simp [h2], hgie⟩
      · rw [if_neg he] at h
        simp only [Bind.bind, Except.bind] at h
        cases hru : dictUpdate rest g fn v with
        | error e => rw [hru] at h; simp at h
        | ok rest' =>
            rw [hru] at h
            cases h
            obtain ⟨hkey, hmono⟩ := dictUpdate_keys rest g fn v rest' hru
            constructor
            · obtain ⟨gi, hgi, hgie⟩ := hkey
              exact ⟨gi, by simp [hgi], hgie⟩
            · intro g' hg'
              obtain ⟨gi, hgi, hgie⟩ := hg'
              rcases List.mem_cons.mp hgi with h2 | h2
              · exact ⟨(gn, inner), by simp, by rw [← hgie, h2]⟩
              · obtain ⟨gj, hgj, hgje⟩ := hmono g' ⟨gi, h2, hgie⟩
                exact ⟨gj, by simp [hgj], hgje⟩

theorem accumRules_ok_keys (gs : FuzzyGroupset) (x : Inputs) :
    ∀ (rules : List FuzzyRule) (d d' : MembDict),
      accumRules gs x rules d = .ok d' →
      (∀ g, mdHasKey d g → mdHasKey d' g) ∧
      (∀ r ∈ rules, ∀ c, r.consequent = some c → mdHasKey d' c.group_name)
  | [], d, d', h => by
      simp only [accumRules] at h
      cases h
      exact ⟨fun g hg => hg, by simp⟩
  | r :: rest, d, d', h => by
      rw [accumRules] at h
      cases hev : r.evaluate x gs with
      | error e => rw [hev] at h; simp [Bind.bind, Except.bind] at h
      | ok t =>
          rw [hev] at h
          simp only [Bind.bind, Except.bind] at h
          cases hupd : dictUpdate d t.1 t.2.1 t.2.2 with
          | error e => rw [hupd] at h; simp at h
          | ok d1 =>
              rw [hupd] at h
              obtain ⟨hkey, hmono⟩ := dictUpdate_keys d t.1 t.2.1 t.2.2 d1 hupd
              obtain ⟨hmono2, hrules⟩ := accumRules_ok_keys gs x rest d1 d' h
              refine ⟨fun g hg => hmono2 g (hmono g hg), ?_⟩
              intro r' hr' c hc
              rcases List.mem_cons.mp hr' with hr' | hr'
              · subst hr'
                obtain ⟨c2, hc2, hg2, _⟩ := evaluate_fst r' x gs t hev
                rw [hc] at hc2
                cases hc2
                rw [← hg2]
                exact hmono2 t.1 hkey
              · exact hrules r' hr' c hc

theorem normalizeAll_ok_keys : ∀ (d d' : MembDict), normalizeAll d = .ok d' →
    ∀ g, mdHasKey d g → mdHasKey d' g
  | [], d', h, g, hg => by
      obtain ⟨gi, hgi, _⟩ := hg
      simp at hgi
  | gi :: rest, d', h, g, hg => by
      rw [normalizeAll] at h
      cases hng : normalizeGroup gi.2 with
      | error e => rw [hng] at h; simp [Bind.bind, Except.bind] at h
      | ok inner' =>
          rw [hng] at h
          simp only [Bind.bind, Except.bind] at h
          cases hnr : normalizeAll rest with
          | error e => rw [hnr] at h; simp at h
          | ok rest' =>
              rw [hnr] at h
              cases h
              obtain ⟨gj, hgj, hje⟩ := hg
              rcases List.mem_cons.mp hgj with h2 | h2
              · exact ⟨(gi.1, inner'), by simp, by rw [← hje, h2]⟩
              · obtain ⟨gk, hgk, hke⟩ :=
                  normalizeAll_ok_keys rest rest' hnr g ⟨gj, h2, hje⟩
                exact ⟨gk, by simp [hgk], hke⟩

theorem tskAll_ok_keys (gs : FuzzyGroupset) :
    ∀ (d : MembDict) (res : List (GName × NpVal)),
      tskAll gs d = .ok res → ∀ g, mdHasKey d g → ∃ p ∈ res, p.1 = g
  | [], res, h, g, hg => by
      obtain ⟨gi, hgi, _⟩ := hg
      simp at hgi
  | gi :: rest, res, h, g, hg => by
      rw [tskAll] at h
      cases htg : tskGroup gs gi.1 gi.2 with
      | error e => rw [htg] at h; simp [Bind.bind, Except.bind] at h
      | ok w =>
          rw [htg] at h
          simp only [Bind.bind, Except.bind] at h
          cases htr : tskAll gs rest with
          | error e => rw [htr] at h; simp at h
          | ok rest' =>
              rw [htr] at h
              cases h
              obtain ⟨gj, hgj, hje⟩ := hg
              rcases List.mem_cons.mp hgj with h2 | h2
              · exact ⟨(gi.1, w), by simp, by rw [← hje, h2]⟩
              · obtain ⟨p, hp, hpe⟩ := tskAll_ok_keys gs rest rest' htr g ⟨gj, h2, hje⟩
                exact ⟨p, by simp [hp], hpe⟩

theorem eval_tsk_output_keys (fis : FIS) (x : Inputs)
    (outs : List (GName × NpVal)) (h : fis.eval_tsk x = .ok outs) :
    ∀ r ∈ fis.ruleset.rules, ∀ c, r.consequent = some c →
      ∃ p ∈ outs, p.1 = c.group_name := by
  rw [FIS.eval_tsk] at h
  cases hm : fis.eval_membership x with
  | error e => rw [hm] at h; simp [Bind.bind, Except.bind] at h
  | ok m =>
      rw [hm] at h
      simp only [Bind.bind, Except.bind, FIS.convert_to_tsk] at h
      rw [FIS.eval_membership] at hm
      cases hd0 : fis.eval_membership_raw x with
      | error e => rw [hd0] at hm; simp [Bind.bind, Except.bind] at hm
      | ok d0 =>
          rw [hd0] at hm
          simp only [Bind.bind, Except.bind] at hm
          rw [FIS.eval_membership_raw] at hd0
          intro r hr c hc
          have hkey : mdHasKey d0 c.group_name :=
            (accumRules_ok_keys fis.groupset x fis.ruleset.rules [] d0 hd0).2 r hr c hc
          exact tskAll_ok_keys fis.groupset m outs h c.group_name
            (normalizeAll_ok_keys d0 m hm c.group_name hkey)

-- ===========================================================================
-- C9: totality of eval_tsk under per-rule resolvability hypotheses
-- ===========================================================================

theorem anteMemberships_total (gs : FuzzyGroupset) (x : Inputs) (sh : Shape) :
    ∀ (as : List Antecedent),
      (∀ a ∈ as, ∃ w f, x a.group_name = some w ∧ w.shape = sh ∧
        lookupFn gs a.group_name a.fn_name = some f ∧ f.impl ≠ FnImpl.tsk) →
      ∃ ms, anteMemberships gs x as = .ok ms ∧ ms.length = as.length ∧
        ∀ m ∈ ms, m.shape = sh
  | [], _ => ⟨[], rfl, rfl, by simp⟩
  | a :: rest, h => by
      obtain ⟨w, f, hw, hwsh, hf, ht⟩ := h a (by simp)
      have hm := anteMembership_ok hw hf ht
      obtain ⟨ms, hms, hlen, hsh⟩ := anteMemberships_total gs x sh rest
        (fun b hb => h b (by simp [hb]))
      refine ⟨w.map f.impl.evalScalar :: ms, ?_, by simp [hlen], ?_⟩
      · rw [anteMemberships]
        simp only [hm, hms, Bind.bind, Except.bind]
      · intro m hm2
        rcases List.mem_cons.mp hm2 with h2 | h2
        · rw [h2, NpVal.map_shape, hwsh]
        · exact hsh m h2

theorem evaluate_total (gs : FuzzyGroupset) (x : Inputs) (sh : Shape)
    (r : FuzzyRule) (c : Consequent)
    (hc : r.consequent = some c)
    (hne : r.antecedents ≠ [])
    (ha : ∀ a ∈ r.antecedents, ∃ w f, x a.group_name = some w ∧ w.shape = sh ∧
      lookupFn gs a.group_name a.fn_name = some f ∧ f.impl ≠ FnImpl.tsk) :
    ∃ out, r.evaluate x gs = .ok (c.group_name, c.fn_name, out) ∧
      out.shape = sh.collapse := by
  obtain ⟨ms, hms, hlen, hsh⟩ := anteMemberships_total gs x sh r.antecedents ha
  have hmsne : ms ≠ [] := by
    intro h
    have : r.antecedents.length = 0 := by rw [← hlen, h]; rfl
    exact hne (List.length_eq_zero.mp this)
  obtain ⟨m0, mrest, agg, _, _, heval, haggsh, _, _⟩ :=
    evaluate_agg_spec r c x gs ms sh hc hms hmsne hsh
  exact ⟨npCollapse agg, heval, by rw [npCollapse_shape, haggsh]⟩

theorem ruleOutputs_total (gs : FuzzyGroupset) (x : Inputs) (sh : Shape) :
    ∀ (rules : List FuzzyRule),
      (∀ r ∈ rules, r.antecedents ≠ [] ∧ (∃ c, r.consequent = some c) ∧
        ∀ a ∈ r.antecedents, ∃ w f, x a.group_name = some w ∧ w.shape = sh ∧
          lookupFn gs a.group_name a.fn_name = some f ∧ f.impl ≠ FnImpl.tsk) →
      ∃ ts, ruleOutputs gs x rules = .ok ts ∧
        List.Forall₂ (fun (r : FuzzyRule) (t : GName × String × NpVal) =>
          (∃ c, r.consequent = some c ∧ t.1 = c.group_name ∧ t.2.1 = c.fn_name) ∧
          t.2.2.shape = sh.collapse) rules ts
  | [], _ => ⟨[], rfl, List.Forall₂.nil⟩
  | r :: rest, h => by
      obtain ⟨hne, ⟨c, hc⟩, ha⟩ := h r (by simp)
      obtain ⟨out, heval, hout⟩ := evaluate_total gs x sh r c hc hne ha
      obtain ⟨ts, hts, hf2⟩ := ruleOutputs_total gs x sh rest
        (fun r' hr' => h r' (by simp [hr']))
      refine ⟨(c.group_name, c.fn_name, out) :: ts, ?_,
        List.Forall₂.cons ⟨⟨c, hc, rfl, rfl⟩, hout⟩ hf2⟩
      rw [ruleOutputs]
      simp only [heval, hts, Bind.bind, Except.bind]

theorem evalTsk_total (fis : FIS) (x : Inputs) (sh : Shape)
    (h : ∀ r ∈ fis.ruleset.rules,
      r.antecedents ≠ [] ∧
      (∃ c, r.consequent = some c ∧
        (lookupFn fis.groupset c.group_name c.fn_name).isSome) ∧
      ∀ a ∈ r.antecedents, ∃ w f, x a.group_name = some w ∧ w.shape = sh ∧
        lookupFn fis.groupset a.group_name a.fn_name = some f ∧
        f.impl ≠ FnImpl.tsk) :
    ∃ res, fis.eval_tsk x = .ok res := by
  obtain ⟨ts, hts, hf2⟩ := ruleOutputs_total fis.groupset x sh fis.ruleset.rules
    (fun r hr => ⟨(h r hr).1,
      (let ⟨c, hc, _⟩ := (h r hr).2.1; ⟨c, hc⟩), (h r hr).2.2⟩)
  have hts_sh : ∀ t ∈ ts, (t.2.2 : NpVal).shape = sh.collapse := by
    intro t ht
    obtain ⟨r, _, _, hsh2⟩ := forall2_mem_right hf2 t ht
    exact hsh2
  obtain ⟨d', hacc, hdsh, hdne, _, _, hpairs, _⟩ :=
    accumRules_spec fis.groupset x sh.collapse fis.ruleset.rules ts [] hts hts_sh
      (by simp) (by simp)
  have hnorm := normalizeAll_eq sh.collapse d' hdne hdsh
  have h1 : ∀ gi' ∈ d'.map (fun gi =>
      (gi.1, gi.2.map (fun p =>
        (p.1, zipSame (· / ·) p.2 (npSumD (gi.2.map (·.2))))))), gi'.2 ≠ [] := by
    intro gi' hgi'
    obtain ⟨gi, hgi, he⟩ := List.mem_map.mp hgi'
    rw [← he]
    simpa using hdne gi hgi
  have h2 : ∀ gi' ∈ d'.map (fun gi =>
      (gi.1, gi.2.map (fun p =>
        (p.1, zipSame (· / ·) p.2 (npSumD (gi.2.map (·.2))))))),
      ∀ q ∈ gi'.2, (q.2 : NpVal).shape = sh.collapse := by
    intro gi' hgi' q hq
    obtain ⟨gi, hgi, he⟩ := List.mem_map.mp hgi'
    rw [← he] at hq
    obtain ⟨p, hp, hep⟩ := List.mem_map.mp hq
    rw [← hep]
    have hmne : gi.2.map (·.2) ≠ [] := by simpa using hdne gi hgi
    have hmsh : ∀ v ∈ gi.2.map (·.2), NpVal.shape v = sh.collapse := by
      intro v hv
      obtain ⟨p2, hp2, he2⟩ := List.mem_map.mp hv
      rw [← he2]
      exact hdsh gi hgi p2 hp2
    show (zipSame (· / ·) p.2 (npSumD (gi.2.map (·.2)))).shape = sh.collapse
    rw [zipSame_shape _
      (by rw [hdsh gi hgi p hp, (npSumD_spec sh.collapse _ hmne hmsh).1])]
    exact hdsh gi hgi p hp
  have h3 : ∀ gi' ∈ d'.map (fun gi =>
      (gi.1, gi.2.map (fun p =>
        (p.1, zipSame (· / ·) p.2 (npSumD (gi.2.map (·.2))))))),
      ∀ q ∈ gi'.2, (lookupFn fis.groupset gi'.1 q.1).isSome := by
    intro gi' hgi' q hq
    obtain ⟨gi, hgi, he⟩ := List.mem_map.mp hgi'
    rw [← he] at hq ⊢
    obtain ⟨p, hp, hep⟩ := List.mem_map.mp hq
    rcases hpairs gi hgi p hp with ⟨t, ht, he1, he2⟩ | ⟨gj, hgj, _⟩
    · obtain ⟨r, hr, ⟨c, hc, hg, hfn⟩, _⟩ := forall2_mem_right hf2 t ht
      obtain ⟨c2, hc2, hlk2⟩ := (h r hr).2.1
      rw [hc] at hc2
      cases hc2
      rw [← hep]
      show (lookupFn fis.groupset gi.1 p.1).isSome
      rw [← he1, ← he2, hg, hfn]
      exact hlk2
    · simp at hgj
  obtain ⟨res, hres, _⟩ := tskAll_spec fis.groupset sh.collapse _ h1 h2 h3
  refine ⟨res, ?_⟩
  rw [FIS.eval_tsk, FIS.eval_membership, FIS.eval_membership_raw]
  simp only [hacc, Bind.bind, Except.bind, hnorm, FIS.convert_to_tsk, hres]

-- ===========================================================================
-- C9: the two-level network scenario
-- ===========================================================================

theorem evalSubtreeTsk_nil (gs : FuzzyGroupset) (ins : Inputs)
    (outs : List (String × List (GName × NpVal))) :
    evalSubtreeTsk gs .nil ins outs = .ok (ins, outs) := rfl

theorem evalSubtreeTsk_cons (gs : FuzzyGroupset) (b : FNode) (rest : FNodeList)
    (ins : Inputs) (outs : List (String × List (GName × NpVal))) :
    evalSubtreeTsk gs (.cons b rest) ins outs = (do
      let io ← evalBranchTsk gs b ins outs
      evalSubtreeTsk gs rest io.1 io.2) := rfl

theorem evalBranchTsk_node (gs : FuzzyGroupset) (name : String)
    (rs : FuzzyRuleset) (branches : FNodeList) (ins : Inputs)
    (outs : List (String × List (GName × NpVal))) :
    evalBranchTsk gs (.node name rs branches) ins outs = (do
      let io ← evalSubtreeTsk gs branches ins outs
      let new ← FIS.eval_tsk ⟨gs, rs⟩ io.1
      .ok (updateInputs io.1 new, outputsInsert io.2 name new)) := rfl

theorem evalRootsTsk_nil (gs : FuzzyGroupset) (ins : Inputs)
    (outs : List (String × List (GName × NpVal))) :
    evalRootsTsk gs .nil ins outs = .ok (ins, outs) := rfl

theorem evalRootsTsk_cons (gs : FuzzyGroupset) (name : String)
    (rs : FuzzyRuleset) (branches rest : FNodeList) (ins : Inputs)
    (outs : List (String × List (GName × NpVal))) :
    evalRootsTsk gs (.cons (.node name rs branches) rest) ins outs = (do
      let io ← evalSubtreeTsk gs branches ins outs
      let rootOut ← FIS.eval_tsk ⟨gs, rs⟩ io.1
      evalRootsTsk gs rest io.1 (outputsInsert io.2 name rootOut)) := rfl

/-- C9: in a two-level network whose child node's sole output group v is the
parent node's sole antecedent group, `req_inputs` excludes the pair
(parent, v), and evaluating the network does not fail with a missing-input
error even though the external inputs never bind v: the child's output is
merged into the running input mapping before the parent is evaluated, so
the whole network evaluation succeeds. -/
theorem c9_two_level_network
    (gs : FuzzyGroupset) (pname cname : String) (prs crs : FuzzyRuleset)
    (v : GName) (x : Inputs) (outs : List (GName × NpVal))
    (hcr : crs.rules ≠ [])
    (hcc : ∀ r ∈ crs.rules, r.consequent.map (·.group_name) = some v)
    (hpr : prs.rules ≠ [])
    (hpa : ∀ r ∈ prs.rules, r.antecedents ≠ [])
    (hpin : ∀ r ∈ prs.rules, ∀ a ∈ r.antecedents, a.group_name = v)
    (hpfn : ∀ r ∈ prs.rules, ∀ a ∈ r.antecedents,
      (lookupFn gs v a.fn_name).map (fun f => f.impl.isTsk) = some false)
    (hpc : ∀ r ∈ prs.rules,
      (r.consequent.bind (fun c => lookupFn gs c.group_name c.fn_name)).isSome)
    (hchild : FIS.eval_tsk ⟨gs, crs⟩ x = .ok outs) :
    ((pname, v) ∉ (FuzzyNetwork.mk gs (.cons (.node pname prs
        (.cons (.node cname crs .nil) .nil)) .nil)).req_inputs) ∧
    ∃ res, (FuzzyNetwork.mk gs (.cons (.node pname prs
        (.cons (.node cname crs .nil) .nil)) .nil)).eval_tsk x = .ok res := by
  constructor
  · obtain ⟨r0, hr0⟩ := List.exists_mem_of_ne_nil crs.rules hcr
    have hout_v : v ∈ crs.output_names :=
      List.mem_filterMap.mpr ⟨r0, hr0, hcc r0 hr0⟩
    obtain ⟨r1, hr1⟩ := List.exists_mem_of_ne_nil prs.rules hpr
    obtain ⟨a1, ha1⟩ := List.exists_mem_of_ne_nil r1.antecedents (hpa r1 hr1)
    have hin_v : v ∈ prs.input_names :=
      List.mem_flatMap.mpr ⟨r1, hr1,
        List.mem_map.mpr ⟨a1, ha1, hpin r1 hr1 a1 ha1⟩⟩
    have haddr : (pname, v) ∈ (FNodeList.cons (FNode.node pname prs
        (FNodeList.cons (FNode.node cname crs FNodeList.nil) FNodeList.nil))
        FNodeList.nil).allAddressed := by
      simp only [FNodeList.allAddressed, FNode.addressed,
        FNodeList.addressedUnder, FNode.ruleset, FNode.name, List.append_nil]
      refine List.mem_map.mpr ⟨v, List.mem_filter.mpr ⟨hout_v, ?_⟩, rfl⟩
      exact List.elem_iff.mpr hin_v
    intro hmem
    rw [FuzzyNetwork.req_inputs, List.mem_filter] at hmem
    simp at hmem
    exact hmem.2 haddr
  · obtain ⟨r0, hr0⟩ := List.exists_mem_of_ne_nil crs.rules hcr
    obtain ⟨c0, hc0, hg0⟩ := Option.map_eq_some'.mp (hcc r0 hr0)
    obtain ⟨p0, hp0, hpe0⟩ :=
      eval_tsk_output_keys ⟨gs, crs⟩ x outs hchild r0 hr0 c0 hc0
    have hfind : (outs.find? (fun p => p.1 == v)).isSome := by
      apply List.find?_isSome.mpr
      refine ⟨p0, hp0, ?_⟩
      rw [hpe0, hg0]
      exact beq_self_eq_true v
    obtain ⟨q0, hq0⟩ := Option.isSome_iff_exists.mp hfind
    have hxv : updateInputs x outs v = some q0.2 := by
      rw [updateInputs]
      simp only [hq0]
    have hcond : ∀ r ∈ prs.rules, r.antecedents ≠ [] ∧
        (∃ c, r.consequent = some c ∧
          (lookupFn gs c.group_name c.fn_name).isSome) ∧
        ∀ a ∈ r.antecedents, ∃ w f, updateInputs x outs a.group_name = some w ∧
          w.shape = q0.2.shape ∧ lookupFn gs a.group_name a.fn_name = some f ∧
          f.impl ≠ FnImpl.tsk := by
      intro r hr
      refine ⟨hpa r hr, ?_, ?_⟩
      · have h1 := hpc r hr
        cases hcq : r.consequent with
        | none => rw [hcq] at h1; simp [Option.bind] at h1
        | some c =>
            rw [hcq] at h1
            exact ⟨c, rfl, by simpa [Option.bind] using h1⟩
      · intro a ha
        obtain ⟨f, hf, hft⟩ := Option.map_eq_some'.mp (hpfn r hr a ha)
        refine ⟨q0.2, f, ?_, rfl, ?_, isTsk_false hft⟩
        · rw [hpin r hr a ha]
          exact hxv
        · rw [hpin r hr a ha]
          exact hf
    obtain ⟨res0, hroot⟩ :=
      evalTsk_total ⟨gs, prs⟩ (updateInputs x outs) q0.2.shape hcond
    rw [FuzzyNetwork.eval_tsk, evalRootsTsk_cons, evalSubtreeTsk_cons,
      evalBranchTsk_node, evalSubtreeTsk_nil]
    simp only [Bind.bind, Except.bind, hchild, hroot, evalSubtreeTsk_nil,
      evalRootsTsk_nil]
    exact ⟨_, rfl⟩

/-- Witness for c9_two_level_network: a parent node ("if heater is on then
temperature is hot") stacked on the source's temperature/heater child; the
pair (parent, heater) is excluded from the required inputs and the network
evaluates successfully from the temperature input alone. -/
theorem c9_two_level_network_witness :
    (("parent", some "heater") ∉ (FuzzyNetwork.mk exGroupset
      (.cons (.node "parent" exParentRules
        (.cons (.node "child" exRules .nil) .nil)) .nil)).req_inputs) ∧
    ∃ res, (FuzzyNetwork.mk exGroupset
      (.cons (.node "parent" exParentRules
        (.cons (.node "child" exRules .nil) .nil)) .nil)).eval_tsk exInput
      = .ok res :=
  c9_two_level_network exGroupset "parent" "child" exParentRules exRules
    (some "heater") exInput [(some "heater", NpVal.scalar (7/10))]
    (by with_unfolding_all decide) (by with_unfolding_all decide)
    (by with_unfolding_all decide) (by with_unfolding_all decide)
    (by with_unfolding_all decide) (by with_unfolding_all decide)
    (by with_unfolding_all decide) (by with_unfolding_all decide)

-- ===========================================================================
-- C10: the network-level Mamdani defuzzification arity bug
-- ===========================================================================

theorem defuzzAll_cons (p : GName × (List ℚ × Codom))
    (rest : List (GName × (List ℚ × Codom))) :
    defuzzAll (p :: rest) = .error typeErrMsg := rfl

theorem dictUpdate_ne : ∀ (d : MembDict) (g : GName) (fn : String) (v : NpVal)
    (d' : MembDict), dictUpdate d g fn v = .ok d' → d' ≠ []
  | [], g, fn, v, d', h => by
      simp only [dictUpdate] at h
      cases h
      simp
  | (gn, inner) :: rest, g, fn, v, d', h => by
      rw [dictUpdate] at h
      by_cases he : gn = g
      · rw [if_pos he] at h
        simp only [Bind.bind, Except.bind] at h
        cases hiu : innerUpdate inner fn v with
        | error e => rw [hiu] at h; simp at h
        | ok inner' => rw [hiu] at h; cases h; simp
      · rw [if_neg he] at h
        simp only [Bind.bind, Except.bind] at h
        cases hru : dictUpdate rest g fn v with
        | error e => rw [hru] at h; simp at h
        | ok rest' => rw [hru] at h; cases h; simp

theorem accumRules_ok_ne (gs : FuzzyGroupset) (x : Inputs) :
    ∀ (rules : List FuzzyRule) (d d' : MembDict),
      accumRules gs x rules d = .ok d' → d ≠ [] → d' ≠ []
  | [], d, d', h, hd => by
      simp only [accumRules] at h
      cases h
      exact hd
  | r :: rest, d, d', h, _ => by
      rw [accumRules] at h
      cases hev : r.evaluate x gs with
      | error e => rw [hev] at h; simp [Bind.bind, Except.bind] at h
      | ok t =>
          rw [hev] at h
          simp only [Bind.bind, Except.bind] at h
          cases hupd : dictUpdate d t.1 t.2.1 t.2.2 with
          | error e => rw [hupd] at h; simp at h
          | ok d1 =>
              rw [hupd] at h
              exact accumRules_ok_ne gs x rest d1 d' h
                (dictUpdate_ne d t.1 t.2.1 t.2.2 d1 hupd)

theorem normalizeAll_ok_ne : ∀ (d d' : MembDict), normalizeAll d = .ok d' →
    d ≠ [] → d' ≠ []
  | [], _, _, hd => absurd rfl hd
  | gi :: rest, d', h, _ => by
      rw [normalizeAll] at h
      cases hng : normalizeGroup gi.2 with
      | error e => rw [hng] at h; simp [Bind.bind, Except.bind] at h
      | ok inner' =>
          rw [hng] at h
          simp only [Bind.bind, Except.bind] at h
          cases hnr : normalizeAll rest with
          | error e => rw [hnr] at h; simp at h
          | ok rest' => rw [hnr] at h; cases h; simp

theorem mamAll_ok_ne (gs : FuzzyGroupset) (n : Nat) :
    ∀ (d : MembDict) (res : List (GName × (List ℚ × Codom))),
      mamAll gs n d = .ok res → d ≠ [] → res ≠ []
  | [], _, _, hd => absurd rfl hd
  | gi :: rest, res, h, _ => by
      rw [mamAll] at h
      cases hmg : mamGroup gs n gi.1 gi.2 with
      | error e => rw [hmg] at h; simp [Bind.bind, Except.bind] at h
      | ok dc =>
          rw [hmg] at h
          simp only [Bind.bind, Except.bind] at h
          cases hmr : mamAll gs n rest with
          | error e => rw [hmr] at h; simp at h
          | ok rest' => rw [hmr] at h; cases h; simp

theorem eval_mamdani_ne (fis : FIS) (x : Inputs) (n : Nat)
    (res : List (GName × (List ℚ × Codom)))
    (hr : fis.ruleset.rules ≠ []) (h : fis.eval_mamdani x n = .ok res) :
    res ≠ [] := by
  rw [FIS.eval_mamdani] at h
  cases hm : fis.eval_membership x with
  | error e => rw [hm] at h; simp [Bind.bind, Except.bind] at h
  | ok m =>
      rw [hm] at h
      simp only [Bind.bind, Except.bind, FIS.convert_to_mamdani] at h
      rw [FIS.eval_membership] at hm
      cases hd0 : fis.eval_membership_raw x with
      | error e => rw [hd0] at hm; simp [Bind.bind, Except.bind] at hm
      | ok d0 =>
          rw [hd0] at hm
          simp only [Bind.bind, Except.bind] at hm
          rw [FIS.eval_membership_raw] at hd0
          obtain ⟨r1, rest1, hrs⟩ := List.exists_cons_of_ne_nil hr
          rw [hrs, accumRules] at hd0
          cases hev : r1.evaluate x fis.groupset with
          | error e => rw [hev] at hd0; simp [Bind.bind, Except.bind] at hd0
          | ok t =>
              rw [hev] at hd0
              simp only [Bind.bind, Except.bind] at hd0
              cases hupd : dictUpdate [] t.1 t.2.1 t.2.2 with
              | error e => rw [hupd] at hd0; simp at hd0
              | ok d1 =>
                  rw [hupd] at hd0
                  have hd0ne : d0 ≠ [] :=
                    accumRules_ok_ne fis.groupset x rest1 d1 d0 hd0
                      (dictUpdate_ne [] t.1 t.2.1 t.2.2 d1 hupd)
                  exact mamAll_ok_ne fis.groupset n m res h
                    (normalizeAll_ok_ne d0 m hm hd0ne)

theorem forcesDefuzz_node (name : String) (rs : FuzzyRuleset) (b : FNodeList) :
    (FNode.node name rs b).forcesDefuzz
      = (!rs.rules.isEmpty || b.anyForcesDefuzz) := rfl

theorem anyForces_nil : FNodeList.nil.anyForcesDefuzz = false := rfl

theorem anyForces_cons (h : FNode) (t : FNodeList) :
    (FNodeList.cons h t).anyForcesDefuzz
      = (h.forcesDefuzz || t.anyForcesDefuzz) := rfl

theorem anyRootForces_nil : FNodeList.nil.anyRootForcesDefuzz = false := rfl

theorem anyRootForces_cons (h : FNode) (t : FNodeList) :
    (FNodeList.cons h t).anyRootForcesDefuzz
      = (h.branches.anyForcesDefuzz || t.anyRootForcesDefuzz) := rfl

theorem evalSubtreeMam_nil (gs : FuzzyGroupset) (n : Nat) (ins : Inputs)
    (outs : List (String × List (GName × (List ℚ × Codom)))) :
    evalSubtreeMam gs n .nil ins outs = .ok (ins, outs) := rfl

theorem evalSubtreeMam_cons (gs : FuzzyGroupset) (n : Nat) (b : FNode)
    (rest : FNodeList) (ins : Inputs)
    (outs : List (String × List (GName × (List ℚ × Codom)))) :
    evalSubtreeMam gs n (.cons b rest) ins outs = (do
      let io ← evalBranchMam gs n b ins outs
      evalSubtreeMam gs n rest io.1 io.2) := rfl

theorem evalBranchMam_node (gs : FuzzyGroupset) (n : Nat) (name : String)
    (rs : FuzzyRuleset) (branches : FNodeList) (ins : Inputs)
    (outs : List (String × List (GName × (List ℚ × Codom)))) :
    evalBranchMam gs n (.node name rs branches) ins outs = (do
      let io ← evalSubtreeMam gs n branches ins outs
      let new ← FIS.eval_mamdani ⟨gs, rs⟩ io.1 n
      let defz ← defuzzAll new
      .ok (updateInputs io.1 defz, outputsInsert io.2 name new)) := rfl

theorem evalRootsMam_nil (gs : FuzzyGroupset) (n : Nat) (ins : Inputs)
    (outs : List (String × List (GName × (List ℚ × Codom)))) :
    evalRootsMam gs n .nil ins outs = .ok (ins, outs) := rfl

theorem evalRootsMam_cons (gs : FuzzyGroupset) (n : Nat) (name : String)
    (rs : FuzzyRuleset) (branches rest : FNodeList) (ins : Inputs)
    (outs : List (String × List (GName × (List ℚ × Codom)))) :
    evalRootsMam gs n (.cons (.node name rs branches) rest) ins outs = (do
      let io ← evalSubtreeMam gs n branches ins outs
      let rootOut ← FIS.eval_mamdani ⟨gs, rs⟩ io.1 n
      evalRootsMam gs n rest io.1 (outputsInsert io.2 name rootOut)) := rfl

/- A branch node that carries a rule (or contains a deeper branch that
does) can never be traversed successfully by the Mamdani walk: if the walk
reaches its defuzzification, `branch.defuzz_mamdani(*mam_fn)` raises the
arity TypeError on the first output; otherwise some earlier step already
raised. -/
mutual
theorem branchMam_forces_error (gs : FuzzyGroupset) (n : Nat) :
    ∀ (b : FNode), b.forcesDefuzz = true → ∀ (ins : Inputs)
      (outs : List (String × List (GName × (List ℚ × Codom)))),
      ∃ e, evalBranchMam gs n b ins outs = .error e
  | .node name rs branches, hf, ins, outs => by
      rw [forcesDefuzz_node, Bool.or_eq_true] at hf
      cases hsub : evalSubtreeMam gs n branches ins outs with
      | error e =>
          refine ⟨e, ?_⟩
          rw [evalBranchMam_node]
          simp only [hsub, Bind.bind, Except.bind]
      | ok io =>
          rcases hf with hrules | hforce
          · have hrne : rs.rules ≠ [] := by
              intro hnil
              rw [hnil] at hrules
              simp at hrules
            cases hev : FIS.eval_mamdani ⟨gs, rs⟩ io.1 n with
            | error e =>
                refine ⟨e, ?_⟩
                rw [evalBranchMam_node]
                simp only [hsub, hev, Bind.bind, Except.bind]
            | ok new =>
                have hne := eval_mamdani_ne ⟨gs, rs⟩ io.1 n new hrne hev
                obtain ⟨p, rest2, hnew⟩ := List.exists_cons_of_ne_nil hne
                refine ⟨typeErrMsg, ?_⟩
                rw [evalBranchMam_node]
                simp only [hsub, hev, hnew, defuzzAll_cons, Bind.bind,
                  Except.bind]
          · obtain ⟨e, he⟩ :=
              subtreeMam_forces_error gs n branches hforce ins outs
            rw [hsub] at he
            simp at he
theorem subtreeMam_forces_error (gs : FuzzyGroupset) (n : Nat) :
    ∀ (l : FNodeList), l.anyForcesDefuzz = true → ∀ (ins : Inputs)
      (outs : List (String × List (GName × (List ℚ × Codom)))),
      ∃ e, evalSubtreeMam gs n l ins outs = .error e
  | .nil, hf, _, _ => by simp [anyForces_nil] at hf
  | .cons hd t, hf, ins, outs => by
      rw [anyForces_cons, Bool.or_eq_true] at hf
      cases hb : evalBranchMam gs n hd ins outs with
      | error e =>
          refine ⟨e, ?_⟩
          rw [evalSubtreeMam_cons]
          simp only [hb, Bind.bind, Except.bind]
      | ok io =>
          rcases hf with hh | ht
          · obtain ⟨e, he⟩ := branchMam_forces_error gs n hd hh ins outs
            rw [hb] at he
            simp at he
          · obtain ⟨e, he⟩ := subtreeMam_forces_error gs n t ht io.1 io.2
            refine ⟨e, ?_⟩
            rw [evalSubtreeMam_cons]
            simp only [hb, Bind.bind, Except.bind, he]
end

theorem rootsMam_forces_error (gs : FuzzyGroupset) (n : Nat) :
    ∀ (l : FNodeList), l.anyRootForcesDefuzz = true → ∀ (ins : Inputs)
      (outs : List (String × List (GName × (List ℚ × Codom)))),
      ∃ e, evalRootsMam gs n l ins outs = .error e
  | .nil, hf, _, _ => by simp [anyRootForces_nil] at hf
  | .cons (.node name rs branches) t, hf, ins, outs => by
      rw [anyRootForces_cons] at hf
      simp only [FNode.branches] at hf
      rw [Bool.or_eq_true] at hf
      cases hsub : evalSubtreeMam gs n branches ins outs with
      | error e =>
          refine ⟨e, ?_⟩
          rw [evalRootsMam_cons]
          simp only [hsub, Bind.bind, Except.bind]
      | ok io =>
          rcases hf with hb | ht
          · obtain ⟨e, he⟩ := subtreeMam_forces_error gs n branches hb ins outs
            rw [hsub] at he
            simp at he
          · cases hev : FIS.eval_mamdani ⟨gs, rs⟩ io.1 n with
            | error e =>
                refine ⟨e, ?_⟩
                rw [evalRootsMam_cons]
                simp only [hsub, hev, Bind.bind, Except.bind]
            | ok rootOut =>
                obtain ⟨e, he⟩ := rootsMam_forces_error gs n t ht io.1
                  (outputsInsert io.2 name rootOut)
                refine ⟨e, ?_⟩
                rw [evalRootsMam_cons]
                simp only [hsub, hev, Bind.bind, Except.bind, he]

/-- C10 counterexample: a network that does contain a node with a child
branch, evaluated under the network-level Mamdani scheme, and yet no
TypeError (indeed no exception at all) is raised: the branch node carries
no rules, so its Mamdani output dict is empty and the per-output
defuzzification loop — the only site of the arity bug — never runs.  The
claim's universal quantification over every such network and every input
mapping is therefore false. -/
theorem c10_defuzz_counterexample :
    (FuzzyNetwork.mk (FuzzyGroupset.mk [])
      (.cons (.node "parent" (FuzzyRuleset.mk [])
        (.cons (.node "child" (FuzzyRuleset.mk []) .nil) .nil)) .nil)).eval_mamdani
      (fun _ => none) 2 = .ok [("parent", [])] := by
  with_unfolding_all rfl

/-- C10 (amended): the static `FuzzyNetwork.defuzz_mamdani(domain, codomain)`
wrapper always raises the arity TypeError — it forwards two positional
arguments to `FIS.defuzz_mamdani`, whose signature takes the single
(domain, codomains) tuple — and whenever some branch (non-root) node of a
network carries at least one rule, the network-level Mamdani evaluation
never produces a result: either an earlier step raises, or the traversal
reaches `branch.defuzz_mamdani(*mam_fn)` on that branch's nonempty output
dict and raises the TypeError there. -/
theorem c10_network_mamdani_defuzz_error :
    (∀ (d : List ℚ) (c : Codom),
      FuzzyNetwork.defuzz_mamdani d c = .error typeErrMsg) ∧
    ∀ (net : FuzzyNetwork) (x : Inputs) (n : Nat),
      net.roots.anyRootForcesDefuzz = true →
      ∃ e, net.eval_mamdani x n = .error e := by
  refine ⟨fun d c => rfl, fun net x n hf => ?_⟩
  obtain ⟨e, he⟩ := rootsMam_forces_error net.groupset n net.roots hf x []
  refine ⟨e, ?_⟩
  rw [FuzzyNetwork.eval_mamdani]
  simp only [he, Bind.bind, Except.bind]

/-- Witness for c10_network_mamdani_defuzz_error: the two-level
temperature/heater network, whose child node carries three rules and hence
forces the branch defuzzification; its Mamdani evaluation returns an
error. -/
theorem c10_network_mamdani_defuzz_error_witness :
    ((FNodeList.cons (FNode.node "parent" exParentRules
        (FNodeList.cons (FNode.node "child" exRules FNodeList.nil)
          FNodeList.nil)) FNodeList.nil).anyRootForcesDefuzz = true) ∧
    ∃ e, (FuzzyNetwork.mk exGroupset (FNodeList.cons
        (FNode.node "parent" exParentRules
          (FNodeList.cons (FNode.node "child" exRules FNodeList.nil)
            FNodeList.nil)) FNodeList.nil)).eval_mamdani exInput 3
      = .error e :=
  ⟨by with_unfolding_all decide,
    c10_network_mamdani_defuzz_error.2
      (FuzzyNetwork.mk exGroupset (FNodeList.cons
        (FNode.node "parent" exParentRules
          (FNodeList.cons (FNode.node "child" exRules FNodeList.nil)
            FNodeList.nil)) FNodeList.nil)) exInput 3
      (by with_unfolding_all decide)⟩

end Hotfis
